import Mathlib

/-!
# Verification of the dataset-combining core of EC_MS (`Combining.py`)

This file is a shallow embedding, in Lean 4, of the synchronization and
calibration engine of the EC_MS package (`src/Combining.py`), together with
proofs and refutations of the behavioural claims made about it.

Modelling conventions:
* numpy float arrays are modelled as `List ℚ` (exact arithmetic; none of the
  verified properties depend on floating-point rounding);
* a Python data dictionary is a fixed record (`Dataset`) of the fields the
  modelled code touches, with the column store as a partial map
  `String → Option (List ℚ)`;
* a Python `KeyError` on a column listed in `data_cols` but absent from the
  dictionary is out of scope: such lookups are totalised with `.getD []` and
  every theorem assumes the listed columns are present;
* fallible code paths (uncaught exceptions, the interactive abort in
  `offerquit`) are modelled by `Option`: `none` is abnormal termination.

The electrochemistry column vocabulary `EC_cols_0` lives in `EC.py`, which is
not part of the sources under verification; it is modelled from the spec
("a fixed vocabulary of known electrochemical channel names") as a concrete
list of standard EC-lab channel names.  No verified property depends on the
exact contents of the list, only on structural facts about it (it contains
`time/s`, and no entry ends in `-x`/`-y`, equals `t`, or carries a trailing
`_<integer>` suffix), which are discharged by `decide`.
-/

namespace ECMS

/-! ## Column taxonomy (`is_EC_data`, `is_MS_data`, `get_type`, `is_time`,
`get_timecol` from `Combining.py`, lines 541-622) -/

/-- Modelled from the spec: the fixed vocabulary of known electrochemical
channel names, `EC_cols_0` from `EC.py` (imported by `is_EC_data`; `EC.py` is
outside the verified sources). -/
def EC_cols_0 : List String :=
  ["time/s", "Ewe/V", "<Ewe>/V", "I/mA", "<I>/mA", "cycle number",
   "loop number", "file number", "Ns", "(Q-Qo)/C", "control/V", "Ns changes"]

/-- Python `col[-2:]` — the last two characters (the whole string if shorter). -/
def pyLast2 (l : List Char) : List Char :=
  match l.reverse with
  | [] => []
  | [a] => [a]
  | a :: b :: _ => [b, a]

/-- Python `col[-1]` — the last character, if any (Python raises `IndexError`
on an empty string; column names are assumed nonempty). -/
def pyLastChar (l : List Char) : Option Char :=
  l.reverse.head?

/-- Python `col[:-1]` as a character list. -/
def chopLast1 (l : List Char) : List Char := l.dropLast

/-- Python `col[:-2]` as a character list. -/
def chopLast2 (l : List Char) : List Char := l.dropLast.dropLast

/-- The tail of the regex `^M[0-9]+-[xy]` after the leading digits: zero or
more further digits, then `-x` or `-y` (anything may follow: `re.search` only
anchors the start). -/
def msRest : List Char → Bool
  | '-' :: c :: _ => c = 'x' ∨ c = 'y'
  | c :: rest => c.isDigit && msRest rest
  | [] => false

/-- `is_MS_data` (line 568): the name matches `^M[0-9]+-[xy]`. -/
def is_MS_data (col : String) : Bool :=
  match col.data with
  | 'M' :: c :: rest => c.isDigit && msRest (c :: rest)
  | _ => false

/-- `is_EC_data` (line 573): exact membership in `EC_cols_0`, or membership
after stripping one trailing `*`.  (Python raises `IndexError` at `col[-1]`
for the empty name; names are assumed nonempty.) -/
def is_EC_data (col : String) : Bool :=
  col ∈ EC_cols_0 ||
    (pyLastChar col.data = some '*' && String.mk (chopLast1 col.data) ∈ EC_cols_0)

/-- The instrument type a column name classifies as. -/
inductive ColType where
  | EC | MS | cinfdata | Xray
deriving DecidableEq, Repr

/-- `get_type` (line 591).  The codomain is `Option` because the Python
function has a `return None` for the input `None`; for every actual string the
result is `some` (`get_type_isSome` below), which is what makes the
suffix-stripping branch of `is_time` unreachable. -/
def get_type (col : String) : Option ColType :=
  if is_EC_data col then some .EC
  else if is_MS_data col then some .MS
  else if pyLast2 col.data = ['-', 'x'] ∨ pyLast2 col.data = ['-', 'y'] then some .cinfdata
  else some .Xray

/-- The trailing deduplication suffix matcher `re.search(r'_[0-9][0-9]*\Z', col)`
(line 561): if the name ends in `_` followed by one or more digits, return the
name with that suffix stripped. -/
def stripNumSuffix (l : List Char) : Option (List Char) :=
  match l.reverse.dropWhile Char.isDigit with
  | '_' :: rest =>
      if (l.reverse.takeWhile Char.isDigit).isEmpty then none else some rest.reverse
  | _ => none

/-- `is_time` (line 541) with explicit recursion depth: per-type time-column
test; for a name whose type is not among the four classes (only possible for
the Python input `None`) the source strips a trailing `_<integer>` suffix and
recurses (lines 560-564) — the branch is kept exactly as in the source, and
`get_type_isSome` below shows it is unreachable for string inputs.  The fuel
makes the recursion structural (each strip shortens the name by at least two
characters, so `is_time` below can never exhaust it). -/
def isTimeAux : ℕ → String → Bool
  | fuel, col =>
    match get_type col with
    | some .EC => decide (col.data.take 4 = ['t', 'i', 'm', 'e'])
    | some .MS => decide (pyLast2 col.data = ['-', 'x'])
    | some .cinfdata => decide (pyLast2 col.data = ['-', 'x'])
    | some .Xray => decide (col = "t")
    | none =>
      match stripNumSuffix col.data with
      | some l' =>
          match fuel with
          | 0 => false
          | n + 1 => isTimeAux n (String.mk l')
      | none => false

/-- `is_time` (line 541). -/
def is_time (col : String) : Bool :=
  isTimeAux col.data.length col

/-- `get_timecol` (line 602) specialised to a string column argument (the
`data_type`-only calling convention is used in the source only for the
`file number` bookkeeping, which is not part of the verified claims).  The
`none` result mirrors the source's `timecol = None` fallthrough, which is
unreachable for string inputs. -/
def get_timecol (col : String) : Option String :=
  match get_type col with
  | some .EC => some "time/s"
  | some .MS => some (String.mk (chopLast2 col.data ++ ['-', 'x']))
  | some .Xray => some "t"
  | some .cinfdata => some (String.mk (chopLast2 col.data ++ ['-', 'x']))
  | none => none

/-- Totalised `get_timecol`; by `get_timecol_eq` below it agrees with
`get_timecol` on every string. -/
def timecolD (col : String) : String :=
  (get_timecol col).getD ""

/-! ## Data model -/

/-- The column store of a dataset dictionary: column name to numeric array.
A `none` value is an absent dictionary key. -/
abbrev DMap := String → Option (List ℚ)

/-- A dataset dictionary, restricted to the fields the verified code touches.
`extra` stands for the arbitrary further metadata fields a dataset may carry;
none of the modelled operations read or write it, which is what lets the
single-input shortcut of `synchronize` be stated as full record equality. -/
@[ext]
structure Dataset where
  title : String := ""
  data_type : String := ""
  tstamp : ℚ := 0
  data_cols : List String := []
  data : DMap := fun _ => none
  tspan : Option (List ℚ) := none
  tspan_0 : Option (List ℚ) := none
  combining_number : Option ℕ := none
  extra : String → Option String := fun _ => none

instance : Inhabited Dataset := ⟨{}⟩

/-! ## Windowing (`cut` / `timeshift` / `cut_dataset`, lines 459-532) -/

/-- The boolean mask `np.logical_and(tspan[0] < t, t < tspan[-1])`
(strict at both ends). -/
def pyCutMask (W : List ℚ) (t : List ℚ) : List Bool :=
  t.map (fun x => decide (W.headD 0 < x) && decide (x < W.getLastD 0))

/-- numpy boolean-mask indexing `arr[mask]`.  numpy raises `IndexError` when
the lengths differ; the theorems below only apply it at equal lengths. -/
def pyMaskFilter (arr : List ℚ) (mask : List Bool) : List ℚ :=
  ((arr.zip mask).filter (·.2)).map (·.1)

/-- The `t_zero` argument of `timeshift` / `cut_dataset`:
Python `None`, the string `'start'`, or a number. -/
inductive TShift where
  | tnone | tstart | tval (q : ℚ)

/-- One column of the time-column loop of `timeshift` (lines 493-496):
`dataset[col] -= t0` for time columns. -/
def shiftStep (t0 : ℚ) (m : DMap) (c : String) : DMap :=
  if is_time c then
    fun k => if k = c then some (((m c).getD []).map (fun x => x - t0)) else m k
  else m

/-- `timeshift` (line 486): subtract a reference instant from every time
column and from the span bounds.  (In the source this mutates its argument;
`cut_dataset` only ever applies it to the fresh copy it has just built, so the
value-level model returns the updated record — the aliasing itself is verified
separately on the heap model below.) -/
def timeshift (dataset : Dataset) (t_zero : TShift) : Dataset :=
  let t0 : ℚ :=
    match t_zero with
    | .tnone => 0
    | .tstart => (dataset.tspan.getD []).headD 0
    | .tval q => q
  let data' := dataset.data_cols.foldl (shiftStep t0) dataset.data
  let sp := dataset.tspan.getD []
  { dataset with data := data', tspan := some [sp.headD 0 - t0, sp.getLastD 0 - t0] }

/-- One column of the cutting loop of `cut_dataset` (lines 515-527): fetch or
compute the cached mask of the column's time column, then filter the column. -/
def cutStep (W : List ℚ) (st : DMap × (String → Option (List Bool))) (c : String) :
    DMap × (String → Option (List Bool)) :=
  let T := timecolD c
  let (mask, cache) :=
    match st.2 T with
    | some m => (m, st.2)
    | none =>
        let m := pyCutMask W ((st.1 T).getD [])
        (m, fun k => if k = T then some m else st.2 k)
  (fun k => if k = c then some (pyMaskFilter ((st.1 c).getD []) mask) else st.1 k,
   cache)

/-- The mask `cut_dataset` computes for a time column `T` of the column
store `m`. -/
def cutMaskOf (W : List ℚ) (m : DMap) (T : String) : List Bool :=
  pyCutMask W ((m T).getD [])

/-- The filtered array `cut_dataset` produces for a column `c` of the column
store `m`: the column filtered by its own time column's mask. -/
def cutColOf (W : List ℚ) (m : DMap) (c : String) : List ℚ :=
  pyMaskFilter ((m c).getD []) (cutMaskOf W m (timecolD c))

/-- `cut_dataset` (line 502): one cached mask per time column, applied to every
column sharing that time column, then the span metadata is set to the window
and `timeshift` is applied. -/
def cutDataset (dataset_0 : Dataset) (tspan : Option (List ℚ)) (t_zero : TShift) :
    Dataset :=
  match tspan with
  | none => dataset_0
  | some W =>
    let st := dataset_0.data_cols.foldl (cutStep W) (dataset_0.data, fun _ => none)
    timeshift { dataset_0 with data := st.1, tspan := some W } t_zero

/-! ## The synchronizer (`synchronize`, lines 21-455)

The model covers calls in which every input is a plain dataset dictionary,
`cutit=False`, and no input carries the `file_number_type` data type (so the
`file number` provenance machinery, lines 258-261/323-328/434-436, is
inactive); the metadata-merging loop (lines 386-416) only writes
non-data-column keys and is outside the modelled state.  `now` is the
`time.time()` sample taken at line 117. -/

/-- The accumulator of the first loop of `synchronize` (lines 120-188). -/
structure Pass1 where
  recstarts : List ℚ := []
  t_start : ℚ := 0
  t_finish : ℚ := 0
  t_first : ℚ := 0
  t_last : ℚ := 0
  hasdata : List (ℕ × Bool) := []
  title : String := ""
  tagged : List Dataset := []

/-- The inner column scan of the first loop (lines 166-179): running minimum of
`t_0 + col[0]` and maximum of `t_0 + col[-1]` over the time columns; an empty
time-column array raises `IndexError`, caught at line 177, which clears the
dataset's `hasdata` flag (and skips that column's update). -/
def spanScan (now : ℚ) (d : Dataset) : ℚ × ℚ × Bool :=
  d.data_cols.foldl
    (fun (st : ℚ × ℚ × Bool) c =>
      if is_time c then
        match (d.data c).getD [] with
        | [] => (st.1, st.2.1, false)
        | arr => (min st.1 (d.tstamp + arr.headD 0),
                  max st.2.1 (d.tstamp + arr.getLastD 0), st.2.2)
      else st)
    (now, 0, true)

/-- The absolute recording-start candidates of a dataset, one per time
column: `tstamp + col[0]` (the claim's "samples of their time columns plus
their tstamp").  The dataset's recording start is the least of these. -/
def timeStarts (d : Dataset) : List ℚ :=
  (d.data_cols.filter (fun c => is_time c)).map
    (fun c => d.tstamp + ((d.data c).getD []).headD 0)

/-- The absolute recording-finish candidates, one per time column:
`tstamp + col[-1]`.  The dataset's recording finish is the greatest. -/
def timeEnds (d : Dataset) : List ℚ :=
  (d.data_cols.filter (fun c => is_time c)).map
    (fun c => d.tstamp + ((d.data c).getD []).getLastD 0)

/-- One step of the first loop of `synchronize` (lines 134-188): tag the
dataset with its combining number, detect empty datasets, extend the combined
title, and accumulate the recording-span and timestamp extrema.  `n` is the
total number of input datasets (for the `'and '` in the title). -/
def pass1Step (now : ℚ) (n : ℕ) (acc : Pass1) (pr : ℕ × Dataset) : Pass1 :=
  let nd := pr.1
  let d : Dataset := { pr.2 with combining_number := some nd }
  if d.data_cols = [] then
    { acc with hasdata := acc.hasdata ++ [(nd, false)],
               recstarts := acc.recstarts ++ [now],
               tagged := acc.tagged ++ [d] }
  else
    let title' :=
      (if acc.title = "" then "" else
        acc.title ++ ", " ++ (if nd = n - 1 then "and " else "")) ++
      "(" ++ d.title ++ ") as " ++ toString nd
    let sc := spanScan now d
    if sc.2.2 then
      { acc with title := title',
                 hasdata := acc.hasdata ++ [(nd, true)],
                 recstarts := acc.recstarts ++ [sc.1],
                 t_first := min acc.t_first d.tstamp,
                 t_last := max acc.t_last d.tstamp,
                 t_start := max acc.t_start sc.1,
                 t_finish := min acc.t_finish sc.2.1,
                 tagged := acc.tagged ++ [d] }
    else
      { acc with title := title',
                 hasdata := acc.hasdata ++ [(nd, false)],
                 tagged := acc.tagged ++ [d] }

/-- The whole first loop, with the initial values of lines 120-124. -/
def pass1 (now : ℚ) (datasets : List Dataset) : Pass1 :=
  datasets.enum.foldl (pass1Step now datasets.length)
    { t_start := 0, t_finish := now, t_first := now, t_last := 0 }

/-- The `t_zero` argument of `synchronize`: one of the four policy strings or
an explicit epoch time. -/
inductive TZeroPolicy where
  | start | first | last | finish | abs (q : ℚ)

/-- Resolution of the `t_zero` policy (lines 210-217). -/
def resolveTZero (p : TZeroPolicy) (P : Pass1) : ℚ :=
  match p with
  | .start => P.t_start
  | .first => P.t_first
  | .last => P.t_last
  | .finish => P.t_finish
  | .abs q => q

/-- Ordered insertion for `argsortQ` (key first, original position as
tie-break). -/
def insertRS (x : ℕ × ℚ) : List (ℕ × ℚ) → List (ℕ × ℚ)
  | [] => [x]
  | y :: ys =>
      if x.2 < y.2 ∨ (x.2 = y.2 ∧ x.1 ≤ y.1) then x :: y :: ys
      else y :: insertRS x ys

/-- `np.argsort` (line 252): the index permutation that sorts the list
ascending.  (numpy's default sort is not stable; ties among equal recording
starts are broken here by original position.  No verified property depends on
the order of the sorted list.) -/
def argsortQ (l : List ℚ) : List ℕ :=
  (l.enum.foldr insertRS []).map (·.1)

/-- Lookup in the `hasdata` dictionary built by the first loop. -/
def lookupB (l : List (ℕ × Bool)) (nd : ℕ) : Bool :=
  ((l.find? (fun p => p.1 == nd)).map (·.2)).getD false

/-- The `oldcollength` dictionary of lines 310-319: the current combined
length of each time column already merged, with the time columns of the
incoming dataset defaulted to `0`. -/
def oldLenFun (m : DMap) (cols : List String) (d : Dataset) : String → Option ℕ :=
  fun T =>
    if T ∈ cols ∧ is_time T then some ((m T).getD []).length
    else if T ∈ d.data_cols ∧ is_time T then some 0
    else none

/-- The `collength` dictionary of lines 314-317: the incoming length of each
time column of the incoming dataset. -/
def dLenFun (d : Dataset) : String → Option ℕ :=
  fun T => if T ∈ d.data_cols ∧ is_time T then some ((d.data T).getD []).length
           else none

/-- Lines 353-371: pad the existing merged column with zero filler up to the
combined length `l0` implied by its time column, then append the incoming
data. -/
def newColData (old incoming : List ℚ) (l0 : ℕ) : List ℚ :=
  (if incoming.length + old.length < l0 then
    old ++ List.replicate (l0 - (incoming.length + old.length)) 0
  else old) ++ incoming

/-- One column of the second loop of `synchronize` (lines 332-382), operating
on the combined column store and column list.  In append mode a column whose
time column cannot be found in the dictionaries raises `KeyError`, caught at
line 359: the column is dropped.  In separate mode a name collision renames
the incoming column with the combining-number suffix (line 376). -/
def processCol (append : Bool) (nd : ℕ) (off : ℚ) (d : Dataset)
    (oldL dL : String → Option ℕ) (st : DMap × List String) (c : String) :
    DMap × List String :=
  let dat0 := (d.data c).getD []
  let dat := if is_time c then dat0.map (fun x => x + off) else dat0
  if append then
    match oldL (timecolD c), dL (timecolD c) with
    | some o, some k =>
        let newd := newColData ((st.1 c).getD []) dat (o + k)
        (fun x => if x = c then some newd else st.1 x,
         if c ∈ st.2 then st.2 else st.2 ++ [c])
    | _, _ => st
  else
    let c' := if (st.1 c).isSome then c ++ "_" ++ toString nd else c
    (fun x => if x = c' then some dat else st.1 x,
     if c' ∈ st.2 then st.2 else st.2 ++ [c'])

/-- One dataset of the second loop of `synchronize` (lines 270-382, without
the metadata loop): datasets flagged empty in the first loop are skipped;
otherwise every column is processed against the length dictionaries
snapshotted before the column loop. -/
def processDataset (append : Bool) (tz : ℚ) (hd : ℕ → Bool)
    (st : DMap × List String) (d : Dataset) : DMap × List String :=
  if hd (d.combining_number.getD 0) then
    let off := d.tstamp - tz
    let oldL := oldLenFun st.1 st.2 d
    let dL := dLenFun d
    d.data_cols.foldl (processCol append (d.combining_number.getD 0) off d oldL dL) st
  else st

/-- Zero-pad column `c` up to length `l0` when its current length `l1` is
shorter (lines 430-432). -/
def padIf (m : DMap) (c : String) (l0 l1 : ℕ) : DMap :=
  if l1 < l0 then
    fun k => if k = c then some (((m c).getD []) ++ List.replicate (l0 - l1) 0) else m k
  else m

/-- One column of the final padding pass (lines 422-432).  The source's
`except KeyError` branch prints "skipping" but does **not** `continue`: when
the time column is absent the stale `l0` of the previous iteration is used,
and on the first iteration the unbound `l0` raises `NameError` — modelled by
the carried `Option ℕ` and the `none` result. -/
def postStep (st : DMap × Option ℕ) (c : String) : Option (DMap × Option ℕ) :=
  let l1 := ((st.1 c).getD []).length
  match st.1 (timecolD c) with
  | some tarr => some (padIf st.1 c tarr.length l1, some tarr.length)
  | none =>
      match st.2 with
      | some l0 => some (padIf st.1 c l0 l1, some l0)
      | none => none

/-- The final padding pass over the combined column list. -/
def postpass (cols : List String) (m : DMap) : Option DMap :=
  (cols.foldlM postStep (m, (none : Option ℕ))).map (·.1)

/-- `synchronize` (line 21), under the modelling scope described above.
`userContinues` is the injected continue-or-abort decision of `offerquit`
(line 535): when there is no overlap and `override` is not set, answering
"n" terminates the whole call (`none`). -/
def synchronize (datasets : List Dataset) (now : ℚ) (t_zero : TZeroPolicy)
    (append override userContinues : Bool) : Option Dataset :=
  let P := pass1 now datasets
  if P.t_finish < P.t_start ∧ override = false ∧ userContinues = false then none
  else
    let tz := resolveTZero t_zero P
    let base : Dataset :=
      { title := P.title, data_type := "combined", tstamp := tz,
        tspan := some [P.t_start - tz, P.t_finish - tz],
        tspan_0 := some [P.t_start, P.t_finish] }
    if (P.hasdata.filter (·.2)).length = 1 then
      (P.hasdata.find? (·.2)).bind (fun p => P.tagged.get? p.1)
    else
      let sorted := (argsortQ P.recstarts).map (fun i => P.tagged.getD i {})
      let st := sorted.foldl (processDataset append tz (lookupB P.hasdata))
        ((fun _ => none : DMap), ([] : List String))
      (postpass st.2 st.1).map (fun m => { base with data_cols := st.2, data := m })

/-! ## Time calibration (`time_cal`, lines 712-827, with
`timestamp_to_seconds`, line 624) -/

/-- `timestamp_to_seconds` (line 624): `int` of the character slices `[0:2]`,
`[3:5]`, `[6:8]`.  `none` is the uncaught `ValueError` Python's `int` raises
on a non-numeric slice. -/
def twoDigits : List Char → Option ℕ
  | [a, b] => if a.isDigit ∧ b.isDigit
      then some ((a.toNat - 48) * 10 + (b.toNat - 48)) else none
  | _ => none

/-- seconds since midnight from `hh:mm:ss` (the source never checks the
separator characters). -/
def timestampToSeconds (s : String) : Option ℚ :=
  match twoDigits (s.data.take 2), twoDigits ((s.data.drop 3).take 2),
        twoDigits ((s.data.drop 6).take 2) with
  | some h, some m, some sec => some ((3600 * h + 60 * m + sec : ℕ) : ℚ)
  | _, _, _ => none

/-- The reference-dataset dictionary of `time_cal`: only its reference time
column and its optional `tstamp` are read. -/
structure RefData where
  rdata : DMap := fun _ => none
  tstamp : Option ℚ := none

/-- `point_type` entries: `'time'`, `'index'` or `'timestamp'`.  (The
guess-from-the-first-point fallback of lines 770-780 for an invalid string is
unrepresentable here.) -/
inductive PointType where
  | time | index | timestamp

/-- The value of one half of a calibration point: a number, an integer
index, or a timestamp string. -/
inductive PVal where
  | pnum (q : ℚ) | pidx (i : ℤ) | pstr (s : String)

/-- Python sequence indexing `t[i]` with negative-index wraparound;
`none` is `IndexError`. -/
def pyIndex (l : List ℚ) (i : ℤ) : Option ℚ :=
  if 0 ≤ i then l.get? i.toNat
  else if (-i).toNat ≤ l.length then l.get? (l.length - (-i).toNat) else none

/-- The outcome of resolving one half of one calibration point
(lines 783-794): a time value, a caught failure (`IndexError`/`TypeError`,
which clears the point's mask entry), or an uncaught exception. -/
inductive PRes where
  | ok (q : ℚ) | dropped | crash

/-- Resolution of one half of one calibration point against a time vector,
per `point_type` (lines 785-791). -/
def resolvePoint (pt : PointType) (t : List ℚ) (v : PVal) : PRes :=
  match pt, v with
  | .index, .pidx i => match pyIndex t i with
      | some q => .ok q          -- t[point]
      | none => .dropped         -- IndexError, caught at line 792
  | .index, .pnum _ => .dropped  -- TypeError (float index), caught
  | .index, .pstr _ => .dropped  -- TypeError (str index), caught
  | .time, .pnum q => .ok q
  | .time, .pidx i => .ok (i : ℚ)
  | .time, .pstr _ => .crash     -- str into a float array: uncaught ValueError
  | .timestamp, .pstr s => match timestampToSeconds s with
      | some q => .ok q
      | none => .crash           -- int() ValueError, uncaught
  | .timestamp, .pnum _ => .dropped  -- slicing a float: TypeError, caught
  | .timestamp, .pidx _ => .dropped

def isCrash : PRes → Bool
  | .crash => true
  | _ => false

/-- The usable calibration points: both halves resolved, in order
(`t_vecs[:, mask]`, lines 804 and 811). -/
def goodPoints (tA tB : List ℚ) (pt : PointType × PointType)
    (points : List (PVal × PVal)) : List (ℚ × ℚ) :=
  points.filterMap (fun p =>
    match resolvePoint pt.1 tA p.1, resolvePoint pt.2 tB p.2 with
    | .ok a, .ok b => some (a, b)
    | _, _ => none)

/-- The `tstamp` offset of lines 756-760: reference epoch minus source epoch,
`0` when the reference has no `tstamp` key. -/
def tstampOffset (ref : RefData) (d : Dataset) : ℚ :=
  match ref.tstamp with
  | none => 0
  | some rt => rt - d.tstamp

/-- The stand-in reference of line 752 for `ref_data` in
`['absolute', 'epoch', None]`: `{reftimecol: None, 'tstamp': 0}`.  The Python
`None` time vector fails every index lookup with a caught `TypeError`, exactly
as the empty list does here. -/
def mkAbsRef (reftimecol : String) : RefData :=
  { rdata := fun k => if k = reftimecol then some [] else none, tstamp := some 0 }

/-- `np.polyfit(t, t_ref, 1)` (line 813): ordinary least squares; `none` is
the `TypeError` numpy raises on empty vectors.  The rank-deficient case
(`den = 0`, all abscissae equal — never reached by any verified claim, since
`time_cal` diverts the one-point case before the fit) is numpy's minimum-norm
solution in the source and is modelled as the horizontal fit through the
mean. -/
def polyfit (pts : List (ℚ × ℚ)) : Option (ℚ × ℚ) :=
  if pts.isEmpty then none
  else
    let n : ℚ := pts.length
    let sx := (pts.map (·.1)).sum
    let sy := (pts.map (·.2)).sum
    let sxx := (pts.map (fun p => p.1 * p.1)).sum
    let sxy := (pts.map (fun p => p.1 * p.2)).sum
    let den := n * sxx - sx * sx
    if den = 0 then some (0, sy / n)
    else some ((n * sxy - sx * sy) / den, (sy * sxx - sx * sxy) / den)

/-- Lines 808/820-823: write the calibrated array into the target time column
and register the column name.  The registration guard at line 822 reads
`if time not in data['data_cols']` — `time` is the *module* imported at line
13, never equal to a string, so the guard always passes and the name is
appended unconditionally. -/
def writeCal (d : Dataset) (timecol : String) (arr : List ℚ) : Dataset :=
  { d with data := fun k => if k = timecol then some arr else d.data k,
           data_cols := d.data_cols ++ [timecol] }

/-- Resolution of the `ref_data` argument (lines 751-754): `none` stands for
`'absolute'`, `'epoch'` or `None` and is replaced by the stand-in. -/
def refdOf (ref : Option RefData) (reftimecol : String) : RefData :=
  match ref with
  | none => mkAbsRef reftimecol
  | some r => r

/-- `time_cal` (line 712).  `ref = none` is the `'absolute'`/`'epoch'`/`None`
reference convention.  The call is `none` (abnormal termination) when: a
required column is a missing dictionary key (`KeyError`); a point half raises
an uncaught exception; or the affine branch is entered with no usable points
(`np.polyfit` on empty vectors). -/
def timeCal (data : Dataset) (ref : Option RefData) (points : List (PVal × PVal))
    (point_type : PointType × PointType)
    (timecol pseudotimecol reftimecol : String) : Option Dataset :=
  let refd := refdOf ref reftimecol
  let offset_0 := tstampOffset refd data
  match data.data pseudotimecol, refd.rdata reftimecol with
  | some ptvec, some rtvec =>
    if points.any (fun p => isCrash (resolvePoint point_type.1 ptvec p.1) ||
                            isCrash (resolvePoint point_type.2 rtvec p.2)) then none
    else
      let good := goodPoints ptvec rtvec point_type points
      if good.length = 1 then
        let offset := (good.headD (0, 0)).2 - (good.headD (0, 0)).1
        some (writeCal data timecol (ptvec.map (fun x => x + offset + offset_0)))
      else
        match polyfit good with
        | none => none
        | some ab =>
            some (writeCal data timecol (ptvec.map (fun x => ab.1 * x + ab.2 + offset_0)))
  | _, _ => none

/-! ## Trigger calibration: the trigger-to-selector matching loop
(`trigger_cal`, lines 975-997) -/

/-- `np.argmin`: index of the first minimum. -/
def argminIdx (l : List ℚ) : ℕ :=
  (l.enum.foldl (fun best p => if p.2 < best.2 then p else best) (0, l.headD 0)).1

/-- The matching loop of `trigger_cal` (lines 975-997), producing
`(pt_points, pt_indeces, t_points)`.  When a selector-change instant (an index
into `shifttimes`) has already been claimed, line 993 overwrites the stored
`pt_points` entries with the same `shifttimes[index]` value (a no-op) and
leaves `t_points` — the trigger times — untouched, so the *first* claiming
trigger's time is what remains paired. -/
def matchTriggers (shifttimes triggers : List ℚ) : List ℚ × List ℕ × List ℚ :=
  triggers.foldl
    (fun (st : List ℚ × List ℕ × List ℚ) trigger =>
      let err := shifttimes.map (fun s => |s - trigger|)
      let index := argminIdx err
      let pt_point := shifttimes.getD index 0
      if index ∈ st.2.1 then
        ((st.1.zip st.2.1).map (fun pr => if pr.2 = index then pt_point else pr.1),
         st.2.1, st.2.2)
      else (st.1 ++ [pt_point], st.2.1 ++ [index], st.2.2 ++ [trigger]))
    ([], [], [])

/-! ## Heap model of `cut_dataset` (for the frame property)

The value-level `cutDataset` above cannot express Python aliasing, so the
mutation behaviour is verified against a heap model: numeric arrays and the
`data_cols` string list live in a heap of references, the dataset dictionary
maps column names to array references, `dict.copy()` shares references,
`.copy()[mask]` allocates, and `-=` writes in place. -/

structure Heap where
  arrs : ℕ → List ℚ
  strs : ℕ → List String
  nfree : ℕ

def allocArr (h : Heap) (v : List ℚ) : Heap × ℕ :=
  ({ h with arrs := fun r => if r = h.nfree then v else h.arrs r, nfree := h.nfree + 1 },
   h.nfree)

def allocStr (h : Heap) (v : List String) : Heap × ℕ :=
  ({ h with strs := fun r => if r = h.nfree then v else h.strs r, nfree := h.nfree + 1 },
   h.nfree)

def writeArr (h : Heap) (r : ℕ) (v : List ℚ) : Heap :=
  { h with arrs := fun x => if x = r then v else h.arrs x }

/-- A dataset dictionary in the heap model: a reference to its `data_cols`
list, array references for its data columns, and the `tspan` value. -/
structure PyDS where
  dcolsRef : ℕ
  cols : String → Option ℕ
  tspan : Option (List ℚ) := none

/-- The reference instant `timeshift` subtracts, per its `t_zero` argument
(lines 487-492). -/
def tshiftVal (ds : PyDS) : TShift → ℚ
  | .tnone => 0
  | .tstart => (ds.tspan.getD []).headD 0
  | .tval q => q

/-- One column of the `timeshift` loop on the heap model:
`dataset[col] -= t0` writes the referenced array in place. -/
def shiftStepHeap (t0 : ℚ) (cols : String → Option ℕ) (h : Heap) (c : String) :
    Heap :=
  if is_time c then
    writeArr h ((cols c).getD 0)
      ((h.arrs ((cols c).getD 0)).map (fun x => x - t0))
  else h

/-- `timeshift` (line 486) on the heap model; the `tspan` rebinding replaces
the dictionary value. -/
def pyTimeshiftHeap (h : Heap) (ds : PyDS) (t_zero : TShift) : Heap × PyDS :=
  ((h.strs ds.dcolsRef).foldl (shiftStepHeap (tshiftVal ds t_zero) ds.cols) h,
   { ds with tspan := some [(ds.tspan.getD []).headD 0 - tshiftVal ds t_zero,
                            (ds.tspan.getD []).getLastD 0 - tshiftVal ds t_zero] })

/-- One column of the cutting loop on the heap model (lines 515-527): reuse
the cached mask if the time column already has one, otherwise compute and
cache it from the referenced time array; then allocate the fresh filtered
array `dataset[col].copy()[mask]` and repoint the dictionary entry at it. -/
def cutStepHeap (W : List ℚ)
    (st : Heap × (String → Option ℕ) × (String → Option (List Bool)))
    (c : String) : Heap × (String → Option ℕ) × (String → Option (List Bool)) :=
  match st.2.2 (timecolD c) with
  | some mask =>
      let ar2 := allocArr st.1 (pyMaskFilter (st.1.arrs ((st.2.1 c).getD 0)) mask)
      (ar2.1, fun k => if k = c then some ar2.2 else st.2.1 k, st.2.2)
  | none =>
      let mask := pyCutMask W (st.1.arrs ((st.2.1 (timecolD c)).getD 0))
      let ar2 := allocArr st.1 (pyMaskFilter (st.1.arrs ((st.2.1 c).getD 0)) mask)
      (ar2.1, fun k => if k = c then some ar2.2 else st.2.1 k,
       fun k => if k = timecolD c then some mask else st.2.2 k)

/-- `cut_dataset` (line 502) on the heap model: shallow-copy the dictionary
(`dataset_0.copy()` — shared references), copy the `data_cols` list
(`allocStr`), allocate one fresh filtered array per column, set the span, and
`timeshift` the copy in place.  (The dictionary copy and the `data_cols` copy
happen before the `tspan is None` early return, as at lines 509-512.) -/
def pyCutDatasetHeap (h : Heap) (ds0 : PyDS) (tspan : Option (List ℚ))
    (t_zero : TShift) : Heap × PyDS :=
  match tspan with
  | none => ((allocStr h (h.strs ds0.dcolsRef)).1,
             { ds0 with dcolsRef := (allocStr h (h.strs ds0.dcolsRef)).2 })
  | some W =>
    let st := (h.strs ds0.dcolsRef).foldl (cutStepHeap W)
      ((allocStr h (h.strs ds0.dcolsRef)).1, ds0.cols, fun _ => none)
    pyTimeshiftHeap st.1
      { ds0 with dcolsRef := (allocStr h (h.strs ds0.dcolsRef)).2,
                 cols := st.2.1, tspan := some W } t_zero

/-! ## Well-formedness predicates and concrete example data -/

/-- Decidable dataset sanity (the spec's §3 invariant): distinct column
names, every listed column present, every column as long as its time column
whenever the latter is present. -/
def wfB (d : Dataset) : Bool :=
  decide d.data_cols.Nodup &&
  d.data_cols.all (fun c => (d.data c).isSome) &&
  d.data_cols.all (fun c =>
    match d.data (timecolD c) with
    | some tarr => ((d.data c).getD []).length == tarr.length
    | none => true)

/-- Decidable sanity for windowing: additionally every column's time column is
itself a listed, present column of the same length. -/
def wfCutB (d : Dataset) : Bool :=
  decide d.data_cols.Nodup &&
  d.data_cols.all (fun c => (d.data c).isSome && decide (timecolD c ∈ d.data_cols)) &&
  d.data_cols.all (fun c =>
    ((d.data c).getD []).length == ((d.data (timecolD c)).getD []).length)

/-- A dataset with one declared time column whose array is empty (a "file
that is empty after the header", line 178). -/
def dsEmptyTime : Dataset :=
  { title := "e", data_type := "EC", tstamp := 0,
    data_cols := ["time/s"],
    data := fun k => if k = "time/s" then some [] else none }

/-- EC dataset A of the overlap scenario: absolute start 100, samples at
relative 0..4, all three channels. -/
def dsA : Dataset :=
  { title := "A", data_type := "EC", tstamp := 100,
    data_cols := ["time/s", "Ewe/V", "I/mA"],
    data := fun k =>
      if k = "time/s" then some [0, 1, 2, 3, 4]
      else if k = "Ewe/V" then some [1, 1, 1, 1, 1]
      else if k = "I/mA" then some [2, 2, 2, 2, 2]
      else none }

/-- EC dataset B: absolute start 102, samples at relative 0..2, current
channel absent (the OCV-segment situation of the comment at lines 304-309). -/
def dsB : Dataset :=
  { title := "B", data_type := "EC", tstamp := 102,
    data_cols := ["time/s", "Ewe/V"],
    data := fun k =>
      if k = "time/s" then some [0, 1, 2]
      else if k = "Ewe/V" then some [3, 3, 3]
      else none }

/-- A small dataset to calibrate: pseudotime column `t`. -/
def dsCal : Dataset :=
  { title := "cal", data_type := "Xray", tstamp := 10,
    data_cols := ["t"],
    data := fun k => if k = "t" then some [0, 1, 2] else none }

/-- A reference dataset for `time_cal`. -/
def refCal : RefData :=
  { rdata := fun k => if k = "time/s" then some [5, 6, 7] else none,
    tstamp := some 25 }

/-- A dataset for the windowing theorems: `t` and one Xray channel. -/
def dsCut : Dataset :=
  { title := "x", data_type := "Xray", tstamp := 0,
    data_cols := ["t", "counts"],
    data := fun k =>
      if k = "t" then some [0, 1, 2, 3, 4]
      else if k = "counts" then some [10, 11, 12, 13, 14]
      else none,
    tspan := some [0, 4] }

/-- The invariant of the append-mode merge state (column store plus column
list): every registered column is present, its time column is registered, and
it is no longer than its time column.  Unregistered keys are absent. -/
def INVm (m : DMap) (cols : List String) : Prop :=
  (∀ c ∈ cols, (m c).isSome) ∧
  (∀ c ∈ cols, timecolD c ∈ cols) ∧
  (∀ c ∈ cols, ((m c).getD []).length ≤ ((m (timecolD c)).getD []).length) ∧
  (∀ k, k ∉ cols → m k = none)

/-- A concrete heap for the frame-property witness: two arrays and the
`data_cols` list, all references below the bound. -/
def heap0 : Heap :=
  { arrs := fun r => if r = 0 then [0, 1, 2] else if r = 1 then [5, 6, 7] else [],
    strs := fun r => if r = 2 then ["t", "counts"] else [],
    nfree := 3 }

/-- The heap-model dataset living in `heap0`. -/
def pds0 : PyDS :=
  { dcolsRef := 2,
    cols := fun k => if k = "t" then some 0 else if k = "counts" then some 1 else none,
    tspan := some [0, 4] }

/-! # Theorems

First the structural facts about the column taxonomy that the later proofs
rely on, then the claims. -/

/-- `get_type` never returns `none` on a string: the `Xray` fallback catches
everything. -/
theorem get_type_isSome (col : String) : (get_type col).isSome := by
  unfold get_type
  split_ifs <;> rfl

/-- `isTimeAux` never consumes fuel on a string input (the recursion is only
reachable through the `none` class, which `get_type_isSome` rules out). -/
theorem isTimeAux_fuel (f₁ f₂ : ℕ) (col : String) :
    isTimeAux f₁ col = isTimeAux f₂ col := by
  unfold isTimeAux
  rcases h : get_type col with _ | t
  · exact absurd (get_type_isSome col) (by simp [h])
  · rcases t <;> rfl

theorem is_time_eq_aux (f : ℕ) (col : String) : is_time col = isTimeAux f col := by
  unfold is_time
  exact isTimeAux_fuel _ _ _

theorem pyLast2_append2 (l : List Char) (a b : Char) :
    pyLast2 (l ++ [a, b]) = [a, b] := by
  unfold pyLast2
  rw [show l ++ [a, b] = (l ++ [a]) ++ [b] by simp, List.reverse_append,
      List.reverse_append]
  rfl

theorem pyLastChar_append2 (l : List Char) (a b : Char) :
    pyLastChar (l ++ [a, b]) = some b := by
  unfold pyLastChar
  rw [show l ++ [a, b] = (l ++ [a]) ++ [b] by simp, List.reverse_append]
  rfl

theorem chopLast2_append2 (l : List Char) (a b : Char) :
    chopLast2 (l ++ [a, b]) = l := by
  unfold chopLast2
  rw [show l ++ [a, b] = (l ++ [a]) ++ [b] by simp, List.dropLast_concat,
      List.dropLast_concat]

/-- No electrochemical vocabulary entry ends in `-x`. -/
theorem not_EC_of_dashx {col : String} (h : pyLast2 col.data = ['-', 'x']) :
    is_EC_data col = false := by
  unfold is_EC_data
  have h1 : col ∉ EC_cols_0 := by
    intro hm
    fin_cases hm <;> simp_all [pyLast2]
  have h2 : pyLastChar col.data ≠ some '*' := by
    intro hc
    unfold pyLast2 at h
    unfold pyLastChar at hc
    rcases hr : col.data.reverse with _ | ⟨x, _ | ⟨y, r⟩⟩ <;> rw [hr] at h hc <;>
      simp_all
  simp [h1, h2]

/-- A name ending in `-x` classifies as MS or cinfdata. -/
theorem get_type_dashx {col : String} (h : pyLast2 col.data = ['-', 'x']) :
    get_type col = some .MS ∨ get_type col = some .cinfdata := by
  unfold get_type
  rw [not_EC_of_dashx h]
  by_cases hms : is_MS_data col = true
  · simp [hms]
  · simp [hms, h]

/-- A name ending in `-x` is a time column. -/
theorem is_time_dashx {col : String} (h : pyLast2 col.data = ['-', 'x']) :
    is_time col = true := by
  rw [is_time_eq_aux 0]
  unfold isTimeAux
  rcases get_type_dashx h with ht | ht <;> rw [ht] <;> simpa using h

/-- A name ending in `-x` splits as its first part plus `-x`. -/
theorem data_split_of_dashx {col : String} (h : pyLast2 col.data = ['-', 'x']) :
    col.data = chopLast2 col.data ++ ['-', 'x'] := by
  unfold pyLast2 at h
  rcases hr : col.data.reverse with _ | ⟨a, _ | ⟨b, rest⟩⟩ <;> rw [hr] at h
  · exact absurd h (by simp)
  · exact absurd h (by simp)
  · simp only [List.cons.injEq, and_true] at h
    have hcol : col.data = rest.reverse ++ [b, a] := by
      have h2 := congrArg List.reverse hr
      simpa using h2
    rw [hcol, chopLast2_append2, h.1, h.2]

/-- A name ending in `-x` is its own resolved time column. -/
theorem get_timecol_dashx {col : String} (h : pyLast2 col.data = ['-', 'x']) :
    get_timecol col = some col := by
  have h2 : String.mk (chopLast2 col.data ++ ['-', 'x']) = col := by
    conv_rhs => rw [show col = String.mk col.data from rfl, data_split_of_dashx h]
  unfold get_timecol
  rcases get_type_dashx h with ht | ht <;> rw [ht] <;> rw [h2]

theorem get_timecol_EC {col : String} (h : get_type col = some .EC) :
    get_timecol col = some "time/s" := by
  unfold get_timecol
  rw [h]

theorem get_timecol_MS {col : String} (h : get_type col = some .MS) :
    get_timecol col = some (String.mk (chopLast2 col.data ++ ['-', 'x'])) := by
  unfold get_timecol
  rw [h]

theorem get_timecol_cinf {col : String} (h : get_type col = some .cinfdata) :
    get_timecol col = some (String.mk (chopLast2 col.data ++ ['-', 'x'])) := by
  unfold get_timecol
  rw [h]

theorem get_timecol_Xray {col : String} (h : get_type col = some .Xray) :
    get_timecol col = some "t" := by
  unfold get_timecol
  rw [h]

/-- The resolved time column of any name is itself a time column
(lines 602-622 against lines 541-558). -/
theorem is_time_timecolD (col : String) : is_time (timecolD col) = true := by
  unfold timecolD
  rcases h : get_type col with _ | t
  · exact absurd (get_type_isSome col) (by simp [h])
  · rcases t
    · rw [get_timecol_EC h]
      decide
    · rw [get_timecol_MS h]
      exact is_time_dashx (pyLast2_append2 _ _ _)
    · rw [get_timecol_cinf h]
      exact is_time_dashx (pyLast2_append2 _ _ _)
    · rw [get_timecol_Xray h]
      decide

/-- Time-column resolution is idempotent: resolved time columns are fixed
points of `get_timecol`. -/
theorem timecolD_idem (col : String) : timecolD (timecolD col) = timecolD col := by
  rcases h : get_type col with _ | t
  · exact absurd (get_type_isSome col) (by simp [h])
  · rcases t
    · rw [show timecolD col = "time/s" by unfold timecolD; rw [get_timecol_EC h]; rfl]
      decide
    · rw [show timecolD col = String.mk (chopLast2 col.data ++ ['-', 'x']) by
        unfold timecolD; rw [get_timecol_MS h]; rfl]
      unfold timecolD
      rw [get_timecol_dashx (pyLast2_append2 _ _ _)]
      rfl
    · rw [show timecolD col = String.mk (chopLast2 col.data ++ ['-', 'x']) by
        unfold timecolD; rw [get_timecol_cinf h]; rfl]
      unfold timecolD
      rw [get_timecol_dashx (pyLast2_append2 _ _ _)]
      rfl
    · rw [show timecolD col = "t" by unfold timecolD; rw [get_timecol_Xray h]; rfl]
      decide

/-! ## Claim C7 — the deduplication-suffix rule of `is_time` -/

/-- C7: the claim states that a time-column name with a trailing `_<integer>`
deduplication suffix is still recognized as a time column, via the
strip-and-recurse branch of `is_time` (lines 560-564).  The code refutes it:
`get_type` classifies every string (`Xray` is a catch-all), so the branch is
unreachable; `t` and `time/s` are time columns, but `t_1` and `time/s_1` are
not, even though the suffix matcher itself would strip `t_1` back to `t`. -/
theorem c7_suffixed_time_names_rejected :
    is_time "t" = true ∧ is_time "time/s" = true ∧
    is_time "t_1" = false ∧ is_time "time/s_1" = false ∧
    stripNumSuffix "t_1".data = some ['t'] := by
  decide

/-! ## Claim C6 — duplicate trigger matching keeps the first claim -/

/-- C6: the claim states that when one selector-change instant is the nearest
match of several triggers, only the *latest* claiming trigger's
(pseudotime, trigger-time) pair is kept.  The code refutes it: with one
selector change at pseudotime `0` claimed by triggers at `1` and then `2`,
the matched pairs are `pt_points = [0]`, `t_points = [1]` — the duplicate
branch (line 993) rewrites `pt_points` with the value it already holds and
never replaces the stored trigger time, so the *first* trigger's time `1`
survives and the later `2` is discarded. -/
theorem c6_first_claiming_trigger_kept :
    matchTriggers [0] [1, 2] = ([0], [0], [1]) ∧ (1 : ℚ) ≠ 2 := by
  constructor
  · simp [matchTriggers, argminIdx, List.enum]
  · norm_num

/-! ## Claim C9 — duplicate registration of the calibrated column -/

/-- C9: the claim states `time_cal` appends the target time column to
`data_cols` only when it is not already present, keeping the names unique.
The code refutes it: the guard at line 822 reads
`if time not in data['data_cols']` where `time` is the *module* imported at
line 13 — never equal to a string — so the name is appended unconditionally:
calibrating `dsCal` (whose `data_cols` is already `["t"]`) into its own
column `t` leaves `t` listed twice. -/
theorem c9_duplicate_timecol_registration :
    (timeCal dsCal (some refCal) [(.pidx 1, .pidx 1)] (.index, .index)
        "t" "t" "time/s").map Dataset.data_cols = some ["t", "t"] ∧
    dsCal.data_cols = ["t"] := by
  constructor
  · rfl
  · rfl

/-! ## Claim C5 — `time_cal` with zero usable points -/

/-- C5 counterexample: the claim states that when every calibration point is
dropped as unresolvable, the call "fails only by diagnostic" (returns
normally, leaving the target column as it was).  The code refutes the
"only by diagnostic" part: with the single point `(index 7, index 1)` against
a pseudotime vector of length 3, the point is dropped (`IndexError`, caught),
`N_good = 0`, control reaches the `np.polyfit` branch, and `polyfit` on empty
vectors raises an uncaught `TypeError`: the call terminates abnormally. -/
theorem c5_zero_points_crash :
    timeCal dsCal (some refCal) [(.pidx 7, .pidx 1)] (.index, .index)
      "t" "t" "time/s" = none := by
  rfl

/-- C5 as amended: when zero usable calibration points remain (and no point
raises an uncaught error itself), `time_cal` terminates abnormally with the
uncaught `TypeError` of the empty least-squares fit; consequently no
calibration is applied and the dataset — in particular the target time
column — is left untouched. -/
theorem c5_zero_points_abort (data : Dataset) (ref : Option RefData)
    (points : List (PVal × PVal)) (pt : PointType × PointType)
    (timecol ptcol refcol : String) (ptvec rtvec : List ℚ)
    (hpt : data.data ptcol = some ptvec)
    (href : (refdOf ref refcol).rdata refcol = some rtvec)
    (hnc : points.any (fun p => isCrash (resolvePoint pt.1 ptvec p.1) ||
        isCrash (resolvePoint pt.2 rtvec p.2)) = false)
    (hgood : goodPoints ptvec rtvec pt points = []) :
    timeCal data ref points pt timecol ptcol refcol = none := by
  unfold timeCal
  simp only [hpt, href, hnc, Bool.false_eq_true, if_false, hgood, List.length_nil]
  rw [if_neg (by omega)]
  rfl

theorem c5_zero_points_abort_witness :
    dsCal.data "t" = some [0, 1, 2] ∧
    (refdOf (some refCal) "time/s").rdata "time/s" = some [5, 6, 7] ∧
    goodPoints [0, 1, 2] [5, 6, 7] (.index, .index) [(.pidx 5, .pidx 1)] = [] ∧
    timeCal dsCal (some refCal) [(.pidx 5, .pidx 1)] (.index, .index)
      "t" "t" "time/s" = none :=
  ⟨rfl, rfl, rfl,
   c5_zero_points_abort dsCal (some refCal) [(.pidx 5, .pidx 1)] (.index, .index)
     "t" "t" "time/s" [0, 1, 2] [5, 6, 7] rfl rfl rfl rfl⟩

/-! ## Claim C4 — one-point time calibration is a pure shift -/

/-- C4: when exactly one usable calibration point `(ta, tb)` remains, the
written target time column is elementwise
`pseudotime + (tb − ta) + tstamp_offset`, where the `tstamp` offset is the
reference's epoch minus the source's epoch, and `0` when the reference carries
no `tstamp` key (lines 756-760 and 803-808). -/
theorem c4_single_point_shift (data : Dataset) (ref : Option RefData)
    (points : List (PVal × PVal)) (pt : PointType × PointType)
    (timecol ptcol refcol : String) (ptvec rtvec : List ℚ) (ta tb : ℚ)
    (hpt : data.data ptcol = some ptvec)
    (href : (refdOf ref refcol).rdata refcol = some rtvec)
    (hnc : points.any (fun p => isCrash (resolvePoint pt.1 ptvec p.1) ||
        isCrash (resolvePoint pt.2 rtvec p.2)) = false)
    (hgood : goodPoints ptvec rtvec pt points = [(ta, tb)]) :
    (timeCal data ref points pt timecol ptcol refcol).map
        (fun d => d.data timecol) =
      some (some (ptvec.map
        (fun x => x + (tb - ta) + tstampOffset (refdOf ref refcol) data))) ∧
    (∀ r, ref = some r → r.tstamp = none →
      tstampOffset (refdOf ref refcol) data = 0) ∧
    (∀ r rt, ref = some r → r.tstamp = some rt →
      tstampOffset (refdOf ref refcol) data = rt - data.tstamp) := by
  refine ⟨?_, ?_, ?_⟩
  · unfold timeCal
    simp only [hpt, href, hnc, Bool.false_eq_true, if_false, hgood, List.length_cons,
      List.length_nil, if_true, reduceIte, Option.map_some]
    unfold writeCal
    simp
  · intro r hr hnone
    subst hr
    unfold tstampOffset refdOf
    rw [hnone]
  · intro r rt hr hsome
    subst hr
    unfold tstampOffset refdOf
    rw [hsome]

theorem c4_single_point_shift_witness :
    dsCal.data "t" = some [0, 1, 2] ∧
    goodPoints [0, 1, 2] [5, 6, 7] (.index, .index) [(.pidx 1, .pidx 1)] = [(1, 6)] ∧
    ((timeCal dsCal (some refCal) [(.pidx 1, .pidx 1)] (.index, .index)
        "t" "t" "time/s").map (fun d => d.data "t") =
      some (some (([0, 1, 2] : List ℚ).map
        (fun x => x + (6 - 1) + tstampOffset (refdOf (some refCal) "time/s") dsCal))) ∧
      tstampOffset (refdOf (some refCal) "time/s") dsCal = 25 - dsCal.tstamp) :=
  ⟨rfl, rfl, by
    have h := c4_single_point_shift dsCal (some refCal) [(.pidx 1, .pidx 1)]
      (.index, .index) "t" "t" "time/s" [0, 1, 2] [5, 6, 7] 1 6 rfl rfl rfl rfl
    exact ⟨h.1, h.2.2 refCal 25 rfl rfl⟩⟩

/-! ## Claim C1 — the computed overlap of two datasets -/

theorem foldl_min_self {l : List ℚ} {m : ℚ} (h : ∀ y ∈ l, m ≤ y) :
    l.foldl min m = m := by
  induction l with
  | nil => rfl
  | cons x xs ih =>
      have hx : min m x = m := min_eq_left (h x (by simp))
      simpa [hx] using ih (fun y hy => h y (by simp [hy]))

theorem foldl_min_eq {l : List ℚ} {m a : ℚ} (hm : m ∈ l) (hle : ∀ x ∈ l, m ≤ x)
    (ham : m ≤ a) : l.foldl min a = m := by
  induction l generalizing a with
  | nil => cases hm
  | cons x xs ih =>
      rcases List.mem_cons.mp hm with h | h
      · subst h
        have : min a m = m := min_eq_right ham
        simpa [this] using foldl_min_self (fun y hy => hle y (by simp [hy]))
      · exact ih h (fun y hy => hle y (by simp [hy]))
          (le_min ham (hle x (by simp)))

theorem foldl_max_self {l : List ℚ} {m : ℚ} (h : ∀ y ∈ l, y ≤ m) :
    l.foldl max m = m := by
  induction l with
  | nil => rfl
  | cons x xs ih =>
      have hx : max m x = m := max_eq_left (h x (by simp))
      simpa [hx] using ih (fun y hy => h y (by simp [hy]))

theorem foldl_max_eq {l : List ℚ} {m a : ℚ} (hm : m ∈ l) (hle : ∀ x ∈ l, x ≤ m)
    (ham : a ≤ m) : l.foldl max a = m := by
  induction l generalizing a with
  | nil => cases hm
  | cons x xs ih =>
      rcases List.mem_cons.mp hm with h | h
      · subst h
        have : max a m = m := max_eq_right ham
        simpa [this] using foldl_max_self (fun y hy => hle y (by simp [hy]))
      · exact ih h (fun y hy => hle y (by simp [hy])) (max_le ham (hle x (by simp)))

/-- The column scan of pass 1, characterised: when no time column's array is
empty, it is the running minimum over `timeStarts` and maximum over
`timeEnds`, and the dataset keeps its data flag. -/
theorem spanScan_eq (now : ℚ) (d : Dataset)
    (h : ∀ c ∈ d.data_cols, is_time c = true → (d.data c).getD [] ≠ []) :
    spanScan now d =
      ((timeStarts d).foldl min now, (timeEnds d).foldl max 0, true) := by
  unfold spanScan timeStarts timeEnds
  have main : ∀ (L : List String) (a b : ℚ),
      (∀ c ∈ L, is_time c = true → (d.data c).getD [] ≠ []) →
      L.foldl
        (fun (st : ℚ × ℚ × Bool) c =>
          if is_time c then
            match (d.data c).getD [] with
            | [] => (st.1, st.2.1, false)
            | arr => (min st.1 (d.tstamp + arr.headD 0),
                      max st.2.1 (d.tstamp + arr.getLastD 0), st.2.2)
          else st)
        (a, b, true) =
      (((L.filter (fun c => is_time c)).map
          (fun c => d.tstamp + ((d.data c).getD []).headD 0)).foldl min a,
       ((L.filter (fun c => is_time c)).map
          (fun c => d.tstamp + ((d.data c).getD []).getLastD 0)).foldl max b,
       true) := by
    intro L
    induction L with
    | nil => intro a b _; rfl
    | cons c cs ih =>
        intro a b hcs
        by_cases hc : is_time c = true
        · rcases hl : (d.data c).getD [] with _ | ⟨x, xs⟩
          · exact absurd hl (hcs c (by simp) hc)
          · simp only [List.foldl_cons, hc, if_true, hl, List.filter_cons_of_pos,
              List.map_cons]
            exact ih _ _ (fun c' hc' => hcs c' (by simp [hc']))
        · simp only [List.foldl_cons, hc, Bool.false_eq_true, if_false,
            List.filter_cons_of_neg, List.map_cons]
          rw [List.filter_cons_of_neg (by simpa using hc)]
          exact ih _ _ (fun c' hc' => hcs c' (by simp [hc']))
  exact main d.data_cols now 0 h

/-- Pass-1 step on a dataset with data: the accumulator fields the claims
depend on. -/
theorem pass1Step_pos (now : ℚ) (n : ℕ) (acc : Pass1) (nd : ℕ) (d : Dataset)
    (s f : ℚ) (hcols : d.data_cols ≠ [])
    (hscan : spanScan now { d with combining_number := some nd } = (s, f, true)) :
    (pass1Step now n acc (nd, d)).t_start = max acc.t_start s ∧
    (pass1Step now n acc (nd, d)).t_finish = min acc.t_finish f ∧
    (pass1Step now n acc (nd, d)).hasdata = acc.hasdata ++ [(nd, true)] ∧
    (pass1Step now n acc (nd, d)).tagged =
      acc.tagged ++ [{ d with combining_number := some nd }] := by
  unfold pass1Step
  simp only [hscan]
  rw [if_neg (by simpa using hcols)]
  simp

theorem c1_overlap (A B : Dataset) (now : ℚ) (tz : TZeroPolicy)
    (append override userContinues : Bool) (sA fA sB fB : ℚ)
    (hneA : ∀ c ∈ A.data_cols, is_time c = true → (A.data c).getD [] ≠ [])
    (hneB : ∀ c ∈ B.data_cols, is_time c = true → (B.data c).getD [] ≠ [])
    (hcolsA : A.data_cols ≠ []) (hcolsB : B.data_cols ≠ [])
    (hsAmem : sA ∈ timeStarts A) (hsAle : ∀ x ∈ timeStarts A, sA ≤ x)
    (hfAmem : fA ∈ timeEnds A) (hfAle : ∀ x ∈ timeEnds A, x ≤ fA)
    (hsBmem : sB ∈ timeStarts B) (hsBle : ∀ x ∈ timeStarts B, sB ≤ x)
    (hfBmem : fB ∈ timeEnds B) (hfBle : ∀ x ∈ timeEnds B, x ≤ fB)
    (hsA0 : 0 ≤ sA) (hsAnow : sA ≤ now) (hfA0 : 0 ≤ fA) (hfAnow : fA ≤ now)
    (hsB0 : 0 ≤ sB) (hsBnow : sB ≤ now) (hfB0 : 0 ≤ fB) (hfBnow : fB ≤ now) :
    (pass1 now [A, B]).t_start = max sA sB ∧
    (pass1 now [A, B]).t_finish = min fA fB ∧
    (∀ out, synchronize [A, B] now tz append override userContinues = some out →
        out.tspan_0 = some [max sA sB, min fA fB]) ∧
    (min fA fB < max sA sB → ∀ t, max sA sB ≤ t → t ≤ min fA fB → False) := by
  have hscanA : spanScan now { A with combining_number := some 0 } = (sA, fA, true) := by
    have h1 : spanScan now { A with combining_number := some 0 } = spanScan now A := rfl
    rw [h1, spanScan_eq now A hneA,
        foldl_min_eq hsAmem hsAle hsAnow, foldl_max_eq hfAmem hfAle hfA0]
  have hscanB : spanScan now { B with combining_number := some 1 } = (sB, fB, true) := by
    have h1 : spanScan now { B with combining_number := some 1 } = spanScan now B := rfl
    rw [h1, spanScan_eq now B hneB,
        foldl_min_eq hsBmem hsBle hsBnow, foldl_max_eq hfBmem hfBle hfB0]
  have e1 : pass1 now [A, B] =
      pass1Step now 2 (pass1Step now 2
        { t_start := 0, t_finish := now, t_first := now, t_last := 0 } (0, A)) (1, B) := rfl
  obtain ⟨hA1, hA2, hA3, hA4⟩ := pass1Step_pos now 2
    { t_start := 0, t_finish := now, t_first := now, t_last := 0 } 0 A sA fA hcolsA hscanA
  obtain ⟨hB1, hB2, hB3, hB4⟩ := pass1Step_pos now 2
    (pass1Step now 2 { t_start := 0, t_finish := now, t_first := now, t_last := 0 } (0, A))
    1 B sB fB hcolsB hscanB
  have hstart : (pass1 now [A, B]).t_start = max sA sB := by
    rw [e1, hB1, hA1]
    rw [show max (0 : ℚ) sA = sA from max_eq_right hsA0]
  have hfinish : (pass1 now [A, B]).t_finish = min fA fB := by
    rw [e1, hB2, hA2]
    rw [show min now fA = fA from min_eq_right hfAnow]
  have hhas : (pass1 now [A, B]).hasdata = [(0, true), (1, true)] := by
    rw [e1, hB3, hA3]
    rfl
  refine ⟨hstart, hfinish, ?_, ?_⟩
  · intro out hsync
    unfold synchronize at hsync
    by_cases hab : (pass1 now [A, B]).t_finish < (pass1 now [A, B]).t_start ∧
        override = false ∧ userContinues = false
    · rw [if_pos hab] at hsync
      cases hsync
    · rw [if_neg hab] at hsync
      rw [show ((pass1 now [A, B]).hasdata.filter (·.2)).length = 2 by
        rw [hhas]; rfl] at hsync
      rw [if_neg (by omega)] at hsync
      rcases Option.map_eq_some'.mp hsync with ⟨m, _, hout⟩
      rw [← hout]
      simp only []
      rw [hstart, hfinish]
  · intro hlt t h1 h2
    linarith

theorem it_times : is_time "time/s" = true := by decide
theorem it_ewe : is_time "Ewe/V" = false := by decide
theorem it_ima : is_time "I/mA" = false := by decide
theorem it_t : is_time "t" = true := by decide
theorem it_counts : is_time "counts" = false := by decide

theorem timeStarts_dsA : timeStarts dsA = [100] := by
  norm_num [timeStarts, dsA, it_times, it_ewe, it_ima, List.filter]

theorem timeEnds_dsA : timeEnds dsA = [104] := by
  norm_num [timeEnds, dsA, it_times, it_ewe, it_ima, List.filter]

theorem timeStarts_dsB : timeStarts dsB = [102] := by
  norm_num [timeStarts, dsB, it_times, it_ewe, List.filter]

theorem timeEnds_dsB : timeEnds dsB = [104] := by
  norm_num [timeEnds, dsB, it_times, it_ewe, List.filter]

theorem c1_overlap_witness :
    (pass1 1000 [dsA, dsB]).t_start = max 100 102 ∧
    (pass1 1000 [dsA, dsB]).t_finish = min 104 104 ∧
    (∀ out, synchronize [dsA, dsB] 1000 .start true true true = some out →
        out.tspan_0 = some [max 100 102, min 104 104]) ∧
    (min (104 : ℚ) 104 < max 100 102 →
      ∀ t, max (100 : ℚ) 102 ≤ t → t ≤ min (104 : ℚ) 104 → False) :=
  c1_overlap dsA dsB 1000 .start true true true 100 104 102 104
    (by decide) (by decide) (by decide) (by decide)
    (by rw [timeStarts_dsA]; simp) (by rw [timeStarts_dsA]; simp)
    (by rw [timeEnds_dsA]; simp) (by rw [timeEnds_dsA]; simp)
    (by rw [timeStarts_dsB]; simp) (by rw [timeStarts_dsB]; simp)
    (by rw [timeEnds_dsB]; simp) (by rw [timeEnds_dsB]; simp)
    (by norm_num) (by norm_num) (by norm_num) (by norm_num)
    (by norm_num) (by norm_num) (by norm_num) (by norm_num)

/-! ## Claim C3 — the single-input shortcut of `synchronize` -/

/-- C3 counterexample: the claim states that for *every* dataset with at least
one data column, `synchronize([ds])` returns `ds` itself (plus the combining
number).  The code refutes it: a dataset whose declared time column holds an
empty array trips the `IndexError` guard of pass 1 (line 177), is flagged as
having no data, and `synchronize` instead returns the fresh empty combined
dataset — whatever the combining tag, the result is not `ds`. -/
theorem c3_empty_time_array_not_returned :
    (synchronize [dsEmptyTime] 1000 .start true true true).map Dataset.data_cols
      = some [] ∧
    dsEmptyTime.data_cols = ["time/s"] ∧
    (∀ tag, synchronize [dsEmptyTime] 1000 .start true true true ≠
        some { dsEmptyTime with combining_number := tag }) := by
  have h1 : (synchronize [dsEmptyTime] 1000 .start true true true).map Dataset.data_cols
      = some [] := by
    simp [synchronize, pass1, pass1Step, spanScan, dsEmptyTime, it_times,
      argsortQ, postpass, List.enum, List.enumFrom]
  refine ⟨h1, rfl, fun tag h => ?_⟩
  have h2 := congrArg (fun o => Option.map Dataset.data_cols o) h
  simp only [] at h2
  rw [h1] at h2
  simp [dsEmptyTime] at h2

/-- C3 as amended: for every dataset with at least one data column *and no
empty time-column array* (so that pass 1 registers it as having data),
`synchronize([ds])` with the no-overlap check overridden returns `ds` itself,
unchanged except for the added `combining_number` tag — no title, span,
`tstamp` or column rewriting is applied (lines 244-249 rebind the result to
the original dictionary and return it). -/
theorem c3_single_dataset_shortcut (ds : Dataset) (now : ℚ) (tz : TZeroPolicy)
    (append userContinues : Bool)
    (hcols : ds.data_cols ≠ [])
    (hne : ∀ c ∈ ds.data_cols, is_time c = true → (ds.data c).getD [] ≠ []) :
    synchronize [ds] now tz append true userContinues =
      some { ds with combining_number := some 0 } := by
  have hscan : spanScan now { ds with combining_number := some 0 } =
      ((timeStarts ds).foldl min now, (timeEnds ds).foldl max 0, true) := by
    have h0 : spanScan now { ds with combining_number := some 0 } = spanScan now ds := rfl
    rw [h0, spanScan_eq now ds hne]
  have e1 : pass1 now [ds] = pass1Step now 1
      { t_start := 0, t_finish := now, t_first := now, t_last := 0 } (0, ds) := rfl
  obtain ⟨_, _, h3, h4⟩ := pass1Step_pos now 1
    { t_start := 0, t_finish := now, t_first := now, t_last := 0 } 0 ds
    ((timeStarts ds).foldl min now) ((timeEnds ds).foldl max 0) hcols hscan
  unfold synchronize
  rw [if_neg (by simp)]
  simp only [e1] at h3 h4 ⊢
  rw [h3, h4]
  rfl

theorem c3_single_dataset_shortcut_witness :
    dsB.data_cols ≠ [] ∧
    synchronize [dsB] 1000 .start true true true =
      some { dsB with combining_number := some 0 } :=
  ⟨by decide,
   c3_single_dataset_shortcut dsB 1000 .start true true (by decide) (by decide)⟩

/-! ## Claim C8 — idempotence of `cut_dataset` -/

theorem pyMaskFilter_mem_pred {arr : List ℚ} {p : ℚ → Bool} {x : ℚ}
    (h : x ∈ pyMaskFilter arr (arr.map p)) : p x = true := by
  induction arr with
  | nil => cases h
  | cons a rest ih =>
      unfold pyMaskFilter at h
      rcases hpa : p a with _ | _
      · apply ih
        unfold pyMaskFilter
        simpa [hpa] using h
      · simp only [List.map_cons, List.zip_cons_cons, hpa, List.filter_cons,
          List.map] at h
        rcases List.mem_cons.mp h with h | h
        · rw [h, hpa]
        · apply ih
          unfold pyMaskFilter
          simpa using h

theorem map_eq_replicate_of_all {l : List ℚ} {p : ℚ → Bool}
    (h : ∀ x ∈ l, p x = true) : l.map p = List.replicate l.length true := by
  induction l with
  | nil => rfl
  | cons a rest ih =>
      simp only [List.map_cons, List.length_cons, List.replicate_succ,
        h a (by simp)]
      rw [ih (fun x hx => h x (by simp [hx]))]

theorem pyMaskFilter_replicate_true {arr : List ℚ} {n : ℕ} (h : arr.length = n) :
    pyMaskFilter arr (List.replicate n true) = arr := by
  induction arr generalizing n with
  | nil => simp [pyMaskFilter]
  | cons a rest ih =>
      rcases n with _ | n
      · cases h
      · unfold pyMaskFilter
        simp only [List.replicate_succ, List.zip_cons_cons, List.filter_cons]
        simp only [List.map]
        have := ih (n := n) (by simpa using h)
        unfold pyMaskFilter at this
        simp [this]

theorem pyMaskFilter_length_congr {a b : List ℚ} {mask : List Bool}
    (h : a.length = b.length) :
    (pyMaskFilter a mask).length = (pyMaskFilter b mask).length := by
  induction mask generalizing a b with
  | nil => simp [pyMaskFilter]
  | cons m ms ih =>
      rcases a with _ | ⟨x, xs⟩ <;> rcases b with _ | ⟨y, ys⟩
      · rfl
      · cases h
      · cases h
      · unfold pyMaskFilter
        simp only [List.zip_cons_cons, List.filter_cons]
        rcases m with _ | _
        · simpa [pyMaskFilter] using ih (a := xs) (b := ys) (by simpa using h)
        · simp only [List.map]
          have := ih (a := xs) (b := ys) (by simpa using h)
          unfold pyMaskFilter at this
          simp [this]

/-- The cutting loop, characterised pointwise: starting from a store that
agrees with `orig` outside `done` and holds the already-filtered columns on
`done` (with a cache holding only original masks), folding over fresh columns
extends this state. -/
theorem cutLoop_spec (W : List ℚ) (orig : DMap) (L : List String) :
    ∀ (done : List String) (m : DMap) (cache : String → Option (List Bool)),
    L.Nodup → (∀ c ∈ L, c ∉ done) →
    (∀ k, k ∉ done → m k = orig k) →
    (∀ c ∈ done, m c = some (cutColOf W orig c)) →
    (∀ c ∈ done, cache (timecolD c) = some (cutMaskOf W orig (timecolD c))) →
    (∀ T b, cache T = some b → b = cutMaskOf W orig T) →
    (∀ k, k ∉ done ++ L → (L.foldl (cutStep W) (m, cache)).1 k = orig k) ∧
    (∀ c ∈ done ++ L, (L.foldl (cutStep W) (m, cache)).1 c = some (cutColOf W orig c)) ∧
    (∀ c ∈ done ++ L,
      (L.foldl (cutStep W) (m, cache)).2 (timecolD c) =
        some (cutMaskOf W orig (timecolD c))) ∧
    (∀ T b, (L.foldl (cutStep W) (m, cache)).2 T = some b → b = cutMaskOf W orig T) := by
  induction L with
  | nil =>
      intro done m cache _ _ hout hdone hcachedone hcache
      simp only [List.foldl_nil, List.append_nil]
      exact ⟨hout, hdone, hcachedone, hcache⟩
  | cons c cs ih =>
      intro done m cache hnd hfresh hout hdone hcachedone hcache
      -- the step on `c` computes the original mask of its time column
      have hmask :
          cutStep W (m, cache) c =
            (fun k => if k = c then some (cutColOf W orig c) else m k,
             fun k => if cache (timecolD c) = none ∧ k = timecolD c
               then some (cutMaskOf W orig (timecolD c)) else cache k) := by
        unfold cutStep
        rcases hc : cache (timecolD c) with _ | b
        · have hTnotdone : timecolD c ∉ done := by
            intro hT
            have := hcachedone (timecolD c) hT
            rw [timecolD_idem] at this
            rw [hc] at this
            cases this
          have hmT : m (timecolD c) = orig (timecolD c) := hout _ hTnotdone
          have hmc : m c = orig c := hout _ (hfresh c (by simp))
          simp only [hc, hmT, hmc]
          unfold cutColOf cutMaskOf
          refine Prod.ext ?_ ?_
          · funext k
            simp
          · funext k
            simp [hc]
        · have hb : b = cutMaskOf W orig (timecolD c) := hcache _ _ hc
          have hmc : m c = orig c := hout _ (hfresh c (by simp))
          simp only [hc, hmc, hb]
          unfold cutColOf
          refine Prod.ext ?_ ?_
          · funext k
            simp
          · funext k
            simp [hc]
      rw [List.foldl_cons, hmask]
      have hnd' : cs.Nodup := (List.nodup_cons.mp hnd).2
      have hcnotcs : c ∉ cs := (List.nodup_cons.mp hnd).1
      obtain ⟨r1, r2, r3, r4⟩ := ih (done ++ [c])
        (fun k => if k = c then some (cutColOf W orig c) else m k)
        (fun k => if cache (timecolD c) = none ∧ k = timecolD c
          then some (cutMaskOf W orig (timecolD c)) else cache k)
        hnd'
        (by
          intro x hx
          simp only [List.mem_append, List.mem_singleton]
          rintro (hxd | hxc)
          · exact hfresh x (by simp [hx]) hxd
          · exact hcnotcs (hxc ▸ hx))
        (by
          intro k hk
          simp only [List.mem_append, List.mem_singleton] at hk
          push_neg at hk
          show (if k = c then some (cutColOf W orig c) else m k) = orig k
          rw [if_neg hk.2]
          exact hout k hk.1)
        (by
          intro x hx
          simp only [List.mem_append, List.mem_singleton] at hx
          rcases hx with hx | hx
          · have hxnec : x ≠ c := by
              intro he
              exact hfresh c (by simp) (he ▸ hx)
            show (if x = c then some (cutColOf W orig c) else m x) = _
            rw [if_neg hxnec]
            exact hdone x hx
          · subst hx
            simp)
        (by
          intro x hx
          simp only [List.mem_append, List.mem_singleton] at hx
          rcases hx with hx | hx
          · show (if cache (timecolD c) = none ∧ timecolD x = timecolD c
                then some (cutMaskOf W orig (timecolD c)) else cache (timecolD x)) = _
            rcases hcc : cache (timecolD c) with _ | b
            · by_cases he : timecolD x = timecolD c
              · rw [if_pos ⟨rfl, he⟩, he]
              · rw [if_neg (by simp [he])]
                exact hcachedone x hx
            · rw [if_neg (by simp)]
              exact hcachedone x hx
          · rw [hx]
            show (if cache (timecolD c) = none ∧ timecolD c = timecolD c
                then some (cutMaskOf W orig (timecolD c))
                else cache (timecolD c)) = _
            rcases hcc : cache (timecolD c) with _ | b
            · rw [if_pos ⟨rfl, rfl⟩]
            · rw [if_neg (by simp), hcache _ _ hcc])
        (by
          intro T b hb
          simp only [] at hb
          by_cases he : cache (timecolD c) = none ∧ T = timecolD c
          · rw [if_pos he] at hb
            cases hb
            exact (he.2 ▸ rfl)
          · rw [if_neg he] at hb
            exact hcache T b hb)
      refine ⟨?_, ?_, ?_, r4⟩
      · intro k hk
        apply r1
        intro hk2
        apply hk
        simp only [List.mem_append, List.mem_singleton, List.mem_cons] at hk2 ⊢
        tauto
      · intro x hx
        apply r2
        simp only [List.mem_append, List.mem_singleton, List.mem_cons] at hx ⊢
        tauto
      · intro x hx
        apply r3
        simp only [List.mem_append, List.mem_singleton, List.mem_cons] at hx ⊢
        tauto

theorem shiftStep_zero (m : DMap) (c : String)
    (hpres : is_time c = true → (m c).isSome) : shiftStep 0 m c = m := by
  unfold shiftStep
  by_cases hc : is_time c = true
  · rw [if_pos hc]
    funext k
    by_cases hk : k = c
    · rcases hs : m c with _ | arr
      · rw [hs] at hpres
        exact absurd (hpres hc) (by simp)
      · rw [if_pos hk, hk, hs]
        simp only [Option.getD_some, sub_zero, Option.some.injEq]
        exact List.map_id' arr
    · rw [if_neg hk]
  · rw [if_neg hc]

theorem shiftLoop_id (L : List String) (m : DMap)
    (hpres : ∀ c ∈ L, is_time c = true → (m c).isSome) :
    L.foldl (shiftStep 0) m = m := by
  induction L with
  | nil => rfl
  | cons c cs ih =>
      rw [List.foldl_cons, shiftStep_zero m c (hpres c (by simp))]
      exact ih (fun c' hc' => hpres c' (by simp [hc']))

/-- `timeshift` with `t_zero=None`: only the span metadata is rebuilt (every
time-column array is mapped by `x - 0`, the identity). -/
theorem timeshift_tnone (ds : Dataset)
    (hpres : ∀ c ∈ ds.data_cols, is_time c = true → (ds.data c).isSome) :
    timeshift ds .tnone =
      { ds with tspan := some [(ds.tspan.getD []).headD 0 - 0,
                              (ds.tspan.getD []).getLastD 0 - 0] } := by
  unfold timeshift
  simp only []
  rw [shiftLoop_id _ _ hpres]

/-- `cut_dataset` with a two-point window and `t_zero=None`, characterised as
a record: every listed column is filtered by its time column's original mask,
every other key is untouched, and the span becomes the window. -/
theorem cutDataset_char (ds : Dataset) (w0 w1 : ℚ) (hnd : ds.data_cols.Nodup) :
    cutDataset ds (some [w0, w1]) .tnone =
      { ds with
        data := fun k => if k ∈ ds.data_cols
                  then some (cutColOf [w0, w1] ds.data k) else ds.data k,
        tspan := some [w0 - 0, w1 - 0] } := by
  obtain ⟨r1, r2, _, _⟩ := cutLoop_spec [w0, w1] ds.data ds.data_cols [] ds.data
    (fun _ => none) hnd (by simp) (fun k _ => rfl) (by simp) (by simp)
    (fun T b h => by cases h)
  simp only [List.nil_append] at r1 r2
  rw [show cutDataset ds (some [w0, w1]) .tnone =
      timeshift
        { ds with
          data := (ds.data_cols.foldl (cutStep [w0, w1]) (ds.data, fun _ => none)).1,
          tspan := some [w0, w1] } .tnone from rfl]
  rw [timeshift_tnone _ (by
    intro c hc _
    dsimp only at hc ⊢
    rw [r2 c hc]
    rfl)]
  have hdata : (ds.data_cols.foldl (cutStep [w0, w1]) (ds.data, fun _ => none)).1 =
      fun k => if k ∈ ds.data_cols then some (cutColOf [w0, w1] ds.data k)
               else ds.data k := by
    funext k
    by_cases hk : k ∈ ds.data_cols
    · rw [if_pos hk, r2 k hk]
    · rw [if_neg hk, r1 k hk]
  rw [hdata]
  rfl

/-- C8: cutting a dataset to a window twice gives exactly the result of
cutting it once — all data columns, the column list, and the span metadata
agree (`cut_dataset(cut_dataset(ds, W), W) = cut_dataset(ds, W)`). -/
theorem c8_cut_dataset_idempotent (ds : Dataset) (w0 w1 : ℚ)
    (h : wfCutB ds = true) :
    cutDataset (cutDataset ds (some [w0, w1]) .tnone) (some [w0, w1]) .tnone =
      cutDataset ds (some [w0, w1]) .tnone := by
  have hnd : ds.data_cols.Nodup := by
    have := (Bool.and_eq_true _ _).mp ((Bool.and_eq_true _ _).mp h).1
    exact of_decide_eq_true this.1
  have hpresclos := (Bool.and_eq_true _ _).mp ((Bool.and_eq_true _ _).mp h).1 |>.2
  have hlenB := (Bool.and_eq_true _ _).mp h |>.2
  have hclos : ∀ c ∈ ds.data_cols, timecolD c ∈ ds.data_cols := by
    intro c hc
    have := List.all_eq_true.mp hpresclos c hc
    exact of_decide_eq_true ((Bool.and_eq_true _ _).mp this).2
  have hlen : ∀ c ∈ ds.data_cols,
      ((ds.data c).getD []).length = ((ds.data (timecolD c)).getD []).length := by
    intro c hc
    have := List.all_eq_true.mp hlenB c hc
    simpa using this
  have h1 := cutDataset_char ds w0 w1 hnd
  rw [h1]
  have h2 := cutDataset_char
    { ds with
      data := fun k => if k ∈ ds.data_cols
                then some (cutColOf [w0, w1] ds.data k) else ds.data k,
      tspan := some [w0 - 0, w1 - 0] } w0 w1 hnd
  rw [h2]
  ext1
  case title => rfl
  case data_type => rfl
  case tstamp => rfl
  case data_cols => rfl
  case tspan => rfl
  case tspan_0 => rfl
  case combining_number => rfl
  case extra => rfl
  case data =>
    funext k
    simp only []
    by_cases hk : k ∈ ds.data_cols
    · rw [if_pos hk, if_pos hk]
      congr 1
      -- the second filtering is the identity on the first cut
      show pyMaskFilter
          ((if k ∈ ds.data_cols then some (cutColOf [w0, w1] ds.data k)
            else ds.data k).getD [])
          (pyCutMask [w0, w1]
            ((if timecolD k ∈ ds.data_cols
              then some (cutColOf [w0, w1] ds.data (timecolD k))
              else ds.data (timecolD k)).getD [])) =
        pyMaskFilter ((ds.data k).getD [])
          (pyCutMask [w0, w1] ((ds.data (timecolD k)).getD []))
      rw [if_pos hk, if_pos (hclos k hk)]
      simp only [Option.getD_some]
      have hTT : timecolD (timecolD k) = timecolD k := timecolD_idem k
      have hT : cutColOf [w0, w1] ds.data (timecolD k) =
          pyMaskFilter ((ds.data (timecolD k)).getD [])
            (pyCutMask [w0, w1] ((ds.data (timecolD k)).getD [])) := by
        unfold cutColOf cutMaskOf
        rw [hTT]
      rw [hT]
      have hmaskrep : pyCutMask [w0, w1]
          (pyMaskFilter ((ds.data (timecolD k)).getD [])
            (pyCutMask [w0, w1] ((ds.data (timecolD k)).getD []))) =
          List.replicate (pyMaskFilter ((ds.data (timecolD k)).getD [])
            (pyCutMask [w0, w1] ((ds.data (timecolD k)).getD []))).length true := by
        apply map_eq_replicate_of_all
        intro x hx
        exact pyMaskFilter_mem_pred (p := fun x =>
          decide (([w0, w1] : List ℚ).headD 0 < x) &&
          decide (x < ([w0, w1] : List ℚ).getLastD 0)) hx
      rw [hmaskrep]
      apply pyMaskFilter_replicate_true
      unfold cutColOf cutMaskOf
      exact pyMaskFilter_length_congr (hlen k hk)
    · rw [if_neg hk, if_neg hk]

theorem c8_cut_dataset_idempotent_witness :
    wfCutB dsCut = true ∧
    cutDataset (cutDataset dsCut (some [1/2, 7/2]) .tnone) (some [1/2, 7/2]) .tnone =
      cutDataset dsCut (some [1/2, 7/2]) .tnone :=
  ⟨by decide, c8_cut_dataset_idempotent dsCut (1/2) (7/2) (by decide)⟩

/-! ## Claim C10 — `cut_dataset` does not mutate its input (heap model) -/

/-- Step facts for the heap-model cutting loop: each step allocates one fresh
array and repoints the processed column's entry at it. -/
theorem cutStepHeap_nfree (W : List ℚ)
    (st : Heap × (String → Option ℕ) × (String → Option (List Bool)))
    (c : String) : (cutStepHeap W st c).1.nfree = st.1.nfree + 1 := by
  unfold cutStepHeap
  rcases st.2.2 (timecolD c) with _ | m <;> rfl

theorem cutStepHeap_arrs (W : List ℚ)
    (st : Heap × (String → Option ℕ) × (String → Option (List Bool)))
    (c : String) (r : ℕ) (hr : r ≠ st.1.nfree) :
    (cutStepHeap W st c).1.arrs r = st.1.arrs r := by
  unfold cutStepHeap
  rcases st.2.2 (timecolD c) with _ | m <;>
    · show (if r = st.1.nfree then _ else st.1.arrs r) = st.1.arrs r
      rw [if_neg hr]

theorem cutStepHeap_strs (W : List ℚ)
    (st : Heap × (String → Option ℕ) × (String → Option (List Bool)))
    (c : String) (r : ℕ) : (cutStepHeap W st c).1.strs r = st.1.strs r := by
  unfold cutStepHeap
  rcases st.2.2 (timecolD c) with _ | m <;> rfl

theorem cutStepHeap_cols (W : List ℚ)
    (st : Heap × (String → Option ℕ) × (String → Option (List Bool)))
    (c : String) :
    (cutStepHeap W st c).2.1 =
      fun k => if k = c then some st.1.nfree else st.2.1 k := by
  unfold cutStepHeap
  rcases st.2.2 (timecolD c) with _ | m <;> rfl

/-- The heap-model cutting loop only allocates: the heap below the starting
allocation bound and the whole string heap are untouched, and every processed
column's dictionary entry ends up pointing at a fresh reference. -/
theorem cutFoldHeap_inv (W : List ℚ) (n₀ : ℕ) (h₀ : Heap) (L : List String) :
    ∀ (st : Heap × (String → Option ℕ) × (String → Option (List Bool))),
    n₀ ≤ st.1.nfree →
    (∀ r, r < n₀ → st.1.arrs r = h₀.arrs r) →
    (∀ r, st.1.strs r = h₀.strs r) →
    n₀ ≤ (L.foldl (cutStepHeap W) st).1.nfree ∧
    (∀ r, r < n₀ → (L.foldl (cutStepHeap W) st).1.arrs r = h₀.arrs r) ∧
    (∀ r, (L.foldl (cutStepHeap W) st).1.strs r = h₀.strs r) ∧
    (∀ c ∈ L, ∃ r, (L.foldl (cutStepHeap W) st).2.1 c = some r ∧ n₀ ≤ r) ∧
    (∀ c r, st.2.1 c = some r → n₀ ≤ r →
      ∃ r', (L.foldl (cutStepHeap W) st).2.1 c = some r' ∧ n₀ ≤ r') := by
  induction L with
  | nil =>
      intro st h1 h2 h3
      exact ⟨h1, h2, h3, by simp, fun c r hc hr => ⟨r, hc, hr⟩⟩
  | cons c cs ih =>
      intro st h1 h2 h3
      rw [List.foldl_cons]
      have hn' : (cutStepHeap W st c).1.nfree = st.1.nfree + 1 :=
        cutStepHeap_nfree W st c
      obtain ⟨g1, g2, g3, g4, g5⟩ := ih (cutStepHeap W st c)
        (by omega)
        (fun r hr => by
          rw [cutStepHeap_arrs W st c r (by omega)]
          exact h2 r hr)
        (fun r => by rw [cutStepHeap_strs W st c r]; exact h3 r)
      refine ⟨g1, g2, g3, ?_, ?_⟩
      · intro x hx
        rcases List.mem_cons.mp hx with hx | hx
        · refine g5 x st.1.nfree ?_ (by omega)
          rw [cutStepHeap_cols W st c]
          simp [hx]
        · exact g4 x hx
      · intro x r hx hr
        by_cases hxc : x = c
        · refine g5 x st.1.nfree ?_ (by omega)
          rw [cutStepHeap_cols W st c]
          simp [hxc]
        · refine g5 x r ?_ hr
          rw [cutStepHeap_cols W st c]
          simp [hxc, hx]

/-- The heap-model `timeshift` loop writes only the arrays its column
dictionary points at: when all of those references are at or above `n₀`, the
heap below `n₀` and the string heap are untouched. -/
theorem shiftFoldHeap_inv (t0 : ℚ) (n₀ : ℕ) (h₀ : Heap)
    (cols : String → Option ℕ) (L : List String)
    (hfresh : ∀ c ∈ L, ∃ r, cols c = some r ∧ n₀ ≤ r) :
    ∀ h : Heap,
    (∀ r, r < n₀ → h.arrs r = h₀.arrs r) →
    (∀ r, h.strs r = h₀.strs r) →
    (∀ r, r < n₀ → (L.foldl (shiftStepHeap t0 cols) h).arrs r = h₀.arrs r) ∧
    (∀ r, (L.foldl (shiftStepHeap t0 cols) h).strs r = h₀.strs r) := by
  induction L with
  | nil => intro h h2 h3; exact ⟨h2, h3⟩
  | cons c cs ih =>
      intro h h2 h3
      rw [List.foldl_cons]
      obtain ⟨r₀, hr₀, hge⟩ := hfresh c (by simp)
      have harr : ∀ r, r < n₀ → (shiftStepHeap t0 cols h c).arrs r = h₀.arrs r := by
        intro r hr
        unfold shiftStepHeap
        by_cases hc : is_time c = true
        · rw [if_pos hc]
          show (if r = (cols c).getD 0 then _ else h.arrs r) = h₀.arrs r
          rw [hr₀]
          rw [if_neg (by simp only [Option.getD_some]; omega)]
          exact h2 r hr
        · rw [if_neg hc]
          exact h2 r hr
      have hstr : ∀ r, (shiftStepHeap t0 cols h c).strs r = h₀.strs r := by
        intro r
        unfold shiftStepHeap
        by_cases hc : is_time c = true
        · rw [if_pos hc]
          exact h3 r
        · rw [if_neg hc]
          exact h3 r
      exact ih (fun c' hc' => hfresh c' (by simp [hc'])) _ harr hstr

/-- Frame property of the heap-model `timeshift`: when every column entry of
the dataset's list points at or above `n₀`, the heap below `n₀` and the whole
string heap are preserved. -/
theorem pyTimeshiftHeap_frame (h : Heap) (ds : PyDS) (tz : TShift) (n₀ : ℕ)
    (h₀ : Heap)
    (hfresh : ∀ c ∈ h.strs ds.dcolsRef, ∃ r, ds.cols c = some r ∧ n₀ ≤ r)
    (ha : ∀ r, r < n₀ → h.arrs r = h₀.arrs r)
    (hs : ∀ r, h.strs r = h₀.strs r) :
    (∀ r, r < n₀ → (pyTimeshiftHeap h ds tz).1.arrs r = h₀.arrs r) ∧
    (∀ r, (pyTimeshiftHeap h ds tz).1.strs r = h₀.strs r) :=
  shiftFoldHeap_inv (tshiftVal ds tz) n₀ h₀ ds.cols (h.strs ds.dcolsRef)
    hfresh h ha hs

/-- C10: `cut_dataset` does not mutate its input.  On the heap model (array
references, shared on `dict.copy()`), cutting a dataset all of whose
references are live (below the allocation bound) leaves the contents of the
input's `data_cols` list and of every one of its column arrays unchanged: the
filtered arrays are fresh copies, and the in-place `timeshift` subtraction
only touches those fresh arrays. -/
theorem c10_cut_dataset_no_mutation (h : Heap) (ds0 : PyDS)
    (tspan : Option (List ℚ)) (tz : TShift)
    (hc : ds0.dcolsRef < h.nfree)
    (ha : ∀ k r, ds0.cols k = some r → r < h.nfree) :
    (pyCutDatasetHeap h ds0 tspan tz).1.strs ds0.dcolsRef = h.strs ds0.dcolsRef ∧
    (∀ k r, ds0.cols k = some r →
      (pyCutDatasetHeap h ds0 tspan tz).1.arrs r = h.arrs r) := by
  rcases tspan with _ | W
  · constructor
    · show (allocStr h (h.strs ds0.dcolsRef)).1.strs ds0.dcolsRef = _
      show (if ds0.dcolsRef = h.nfree then _ else h.strs ds0.dcolsRef) = _
      rw [if_neg (by omega)]
    · intro k r _
      rfl
  · have hstep : pyCutDatasetHeap h ds0 (some W) tz =
        pyTimeshiftHeap
          ((h.strs ds0.dcolsRef).foldl (cutStepHeap W)
            ((allocStr h (h.strs ds0.dcolsRef)).1, ds0.cols, fun _ => none)).1
          { ds0 with dcolsRef := (allocStr h (h.strs ds0.dcolsRef)).2,
                     cols := ((h.strs ds0.dcolsRef).foldl (cutStepHeap W)
                       ((allocStr h (h.strs ds0.dcolsRef)).1, ds0.cols,
                        fun _ => none)).2.1,
                     tspan := some W } tz := rfl
    obtain ⟨g1, g2, g3, g4, g5⟩ := cutFoldHeap_inv W (h.nfree + 1)
      (allocStr h (h.strs ds0.dcolsRef)).1 (h.strs ds0.dcolsRef)
      ((allocStr h (h.strs ds0.dcolsRef)).1, ds0.cols, fun _ => none)
      (le_refl _) (fun r _ => rfl) (fun r => rfl)
    have hlist :
        ((h.strs ds0.dcolsRef).foldl (cutStepHeap W)
          ((allocStr h (h.strs ds0.dcolsRef)).1, ds0.cols, fun _ => none)).1.strs
          (allocStr h (h.strs ds0.dcolsRef)).2 = h.strs ds0.dcolsRef := by
      rw [g3]
      exact if_pos rfl
    obtain ⟨s1, s2⟩ := pyTimeshiftHeap_frame
      ((h.strs ds0.dcolsRef).foldl (cutStepHeap W)
        ((allocStr h (h.strs ds0.dcolsRef)).1, ds0.cols, fun _ => none)).1
      { ds0 with dcolsRef := (allocStr h (h.strs ds0.dcolsRef)).2,
                 cols := ((h.strs ds0.dcolsRef).foldl (cutStepHeap W)
                   ((allocStr h (h.strs ds0.dcolsRef)).1, ds0.cols,
                    fun _ => none)).2.1,
                 tspan := some W } tz (h.nfree + 1)
      ((h.strs ds0.dcolsRef).foldl (cutStepHeap W)
        ((allocStr h (h.strs ds0.dcolsRef)).1, ds0.cols, fun _ => none)).1
      (by
        intro c hcmem
        rw [hlist] at hcmem
        exact g4 c hcmem)
      (fun r _ => rfl) (fun r => rfl)
    constructor
    · rw [hstep, s2 ds0.dcolsRef, g3 ds0.dcolsRef]
      show (if ds0.dcolsRef = h.nfree then _ else h.strs ds0.dcolsRef) = _
      rw [if_neg (by omega)]
    · intro k r hk
      have hrlt : r < h.nfree := ha k r hk
      rw [hstep, s1 r (by omega), g2 r (by omega)]
      rfl

theorem c10_cut_dataset_no_mutation_witness :
    pds0.dcolsRef < heap0.nfree ∧
    ((pyCutDatasetHeap heap0 pds0 (some [1/2, 5/2]) .tnone).1.strs pds0.dcolsRef
        = heap0.strs pds0.dcolsRef ∧
     (∀ k r, pds0.cols k = some r →
        (pyCutDatasetHeap heap0 pds0 (some [1/2, 5/2]) .tnone).1.arrs r
          = heap0.arrs r)) :=
  ⟨by decide,
   c10_cut_dataset_no_mutation heap0 pds0 (some [1/2, 5/2]) .tnone (by decide)
     (by
       intro k r h
       unfold pds0 at h
       dsimp only at h
       split_ifs at h <;> cases h <;> decide)⟩

/-! ## Claim C2 — the append-mode length invariant of `synchronize` -/

theorem wfB_nodup {d : Dataset} (h : wfB d = true) : d.data_cols.Nodup := by
  unfold wfB at h
  exact of_decide_eq_true ((Bool.and_eq_true _ _).mp
    ((Bool.and_eq_true _ _).mp h).1).1

theorem wfB_pres {d : Dataset} (h : wfB d = true) :
    ∀ c ∈ d.data_cols, (d.data c).isSome := by
  unfold wfB at h
  intro c hc
  exact List.all_eq_true.mp ((Bool.and_eq_true _ _).mp
    ((Bool.and_eq_true _ _).mp h).1).2 c hc

theorem wfB_len {d : Dataset} (h : wfB d = true) :
    ∀ c ∈ d.data_cols, ∀ tarr, d.data (timecolD c) = some tarr →
      ((d.data c).getD []).length = tarr.length := by
  unfold wfB at h
  intro c hc tarr htarr
  have h3 := List.all_eq_true.mp ((Bool.and_eq_true _ _).mp h).2 c hc
  rw [htarr] at h3
  simpa using h3

theorem wfB_tag (d : Dataset) (t : Option ℕ) :
    wfB { d with combining_number := t } = wfB d := rfl

theorem wfB_default : wfB ({} : Dataset) = true := by decide

theorem newColData_length (old incoming : List ℚ) (l0 : ℕ) :
    (newColData old incoming l0).length = max l0 (incoming.length + old.length) := by
  unfold newColData
  split_ifs with h
  · simp only [List.length_append, List.length_replicate]
    omega
  · simp only [List.length_append]
    omega

/-- The `collength` lookup at a resolved time column. -/
theorem dLen_timecol (d : Dataset) (c : String) :
    dLenFun d (timecolD c) =
      if timecolD c ∈ d.data_cols
      then some ((d.data (timecolD c)).getD []).length else none := by
  unfold dLenFun
  by_cases hm : timecolD c ∈ d.data_cols
  · rw [if_pos ⟨hm, is_time_timecolD c⟩, if_pos hm]
  · rw [if_neg (by simp [hm]), if_neg hm]

/-- The `oldcollength` lookup at a resolved time column of the incoming
dataset: uniform under the merge invariant (an unregistered key is absent, so
its default `0` is its stored length). -/
theorem oldLen_timecol (m₀ : DMap) (cols₀ : List String) (d : Dataset)
    (c : String) (hT : timecolD c ∈ d.data_cols)
    (hinv4 : ∀ k, k ∉ cols₀ → m₀ k = none) :
    oldLenFun m₀ cols₀ d (timecolD c) =
      some ((m₀ (timecolD c)).getD []).length := by
  unfold oldLenFun
  by_cases hm : timecolD c ∈ cols₀
  · rw [if_pos ⟨hm, is_time_timecolD c⟩]
  · rw [if_neg (by simp [hm]), if_pos ⟨hT, is_time_timecolD c⟩,
      hinv4 _ hm]
    rfl

theorem processCol_append_step (nd : ℕ) (off : ℚ) (d : Dataset) (m₀ : DMap)
    (cols₀ : List String) (st : DMap × List String) (c : String)
    (hT : timecolD c ∈ d.data_cols)
    (hinv4 : ∀ k, k ∉ cols₀ → m₀ k = none) :
    processCol true nd off d (oldLenFun m₀ cols₀ d) (dLenFun d) st c =
      (fun x => if x = c then
          some (newColData ((st.1 c).getD [])
            (if is_time c then ((d.data c).getD []).map (fun x => x + off)
             else (d.data c).getD [])
            (((m₀ (timecolD c)).getD []).length +
             ((d.data (timecolD c)).getD []).length))
        else st.1 x,
       if c ∈ st.2 then st.2 else st.2 ++ [c]) := by
  unfold processCol
  rw [oldLen_timecol m₀ cols₀ d c hT hinv4, dLen_timecol, if_pos hT]
  rfl

theorem processCol_append_skip (nd : ℕ) (off : ℚ) (d : Dataset) (m₀ : DMap)
    (cols₀ : List String) (st : DMap × List String) (c : String)
    (hT : timecolD c ∉ d.data_cols) :
    processCol true nd off d (oldLenFun m₀ cols₀ d) (dLenFun d) st c = st := by
  unfold processCol
  rw [dLen_timecol, if_neg hT]
  rcases h : oldLenFun m₀ cols₀ d (timecolD c) with _ | o <;> rfl

theorem mem_append_if (a k : String) (cols : List String) :
    k ∈ (if a ∈ cols then cols else cols ++ [a]) ↔ k ∈ cols ∨ k = a := by
  by_cases ha : a ∈ cols
  · rw [if_pos ha]
    constructor
    · exact Or.inl
    · rintro (h | h)
      · exact h
      · exact h ▸ ha
  · rw [if_neg ha]
    simp

/-- The column loop of the second pass of `synchronize` in append mode,
characterised pointwise against the snapshot `(m₀, cols₀)` taken at the start
of the dataset (lines 310-319): a column whose time column is present in the
incoming dataset is replaced by the padded concatenation; a column whose time
column is missing is dropped (the `KeyError` branch, lines 359-363); the
column list gains exactly the kept columns. -/
theorem processCols_fold (nd : ℕ) (off : ℚ) (d : Dataset) (m₀ : DMap)
    (cols₀ : List String) (hinv4 : ∀ k, k ∉ cols₀ → m₀ k = none) :
    ∀ (L : List String), L.Nodup →
    ∀ (m : DMap) (cols : List String), (∀ c ∈ L, m c = m₀ c) →
    (∀ k, k ∉ L →
      (L.foldl (processCol true nd off d (oldLenFun m₀ cols₀ d) (dLenFun d))
        (m, cols)).1 k = m k) ∧
    (∀ c ∈ L,
      (L.foldl (processCol true nd off d (oldLenFun m₀ cols₀ d) (dLenFun d))
        (m, cols)).1 c =
        if timecolD c ∈ d.data_cols
        then some (newColData ((m₀ c).getD [])
          (if is_time c then ((d.data c).getD []).map (fun x => x + off)
           else (d.data c).getD [])
          (((m₀ (timecolD c)).getD []).length +
           ((d.data (timecolD c)).getD []).length))
        else m₀ c) ∧
    (∀ k, k ∈
      (L.foldl (processCol true nd off d (oldLenFun m₀ cols₀ d) (dLenFun d))
        (m, cols)).2 ↔
      k ∈ cols ∨ (k ∈ L ∧ timecolD k ∈ d.data_cols)) := by
  intro L
  induction L with
  | nil =>
      intro _ m cols _
      refine ⟨fun k _ => rfl, by simp, by simp⟩
  | cons a L' ih =>
      intro hnd m cols hagree
      have hndL' : L'.Nodup := (List.nodup_cons.mp hnd).2
      have hanotin : a ∉ L' := (List.nodup_cons.mp hnd).1
      by_cases ka : timecolD a ∈ d.data_cols
      · rw [List.foldl_cons, processCol_append_step nd off d m₀ cols₀ (m, cols) a ka hinv4]
        obtain ⟨r1, r2, r3⟩ := ih hndL'
          (fun x => if x = a then
              some (newColData ((m a).getD [])
                (if is_time a then ((d.data a).getD []).map (fun x => x + off)
                 else (d.data a).getD [])
                (((m₀ (timecolD a)).getD []).length +
                 ((d.data (timecolD a)).getD []).length))
            else m x)
          (if a ∈ cols then cols else cols ++ [a])
          (by
            intro c hc
            have hca : c ≠ a := fun he => hanotin (he ▸ hc)
            show (if c = a then _ else m c) = m₀ c
            rw [if_neg hca]
            exact hagree c (by simp [hc]))
        refine ⟨?_, ?_, ?_⟩
        · intro k hk
          have hka : k ≠ a := by intro he; exact hk (by simp [he])
          have hkL : k ∉ L' := fun he => hk (by simp [he])
          rw [r1 k hkL]
          show (if k = a then _ else m k) = m k
          rw [if_neg hka]
        · intro c hc
          rcases List.mem_cons.mp hc with hc | hc
          · subst hc
            rw [r1 c hanotin]
            show (if c = c then _ else m c) = _
            rw [if_pos rfl, if_pos ka, hagree c (by simp)]
          · exact r2 c hc
        · intro k
          rw [r3 k, mem_append_if]
          constructor
          · rintro ((hk | hk) | ⟨hk1, hk2⟩)
            · exact Or.inl hk
            · exact Or.inr ⟨by simp [hk], hk ▸ ka⟩
            · exact Or.inr ⟨by simp [hk1], hk2⟩
          · rintro (hk | ⟨hk1, hk2⟩)
            · exact Or.inl (Or.inl hk)
            · rcases List.mem_cons.mp hk1 with hk1 | hk1
              · exact Or.inl (Or.inr hk1)
              · exact Or.inr ⟨hk1, hk2⟩
      · rw [List.foldl_cons, processCol_append_skip nd off d m₀ cols₀ (m, cols) a ka]
        obtain ⟨r1, r2, r3⟩ := ih hndL' m cols
          (fun c hc => hagree c (by simp [hc]))
        refine ⟨?_, ?_, ?_⟩
        · intro k hk
          exact r1 k (fun he => hk (by simp [he]))
        · intro c hc
          rcases List.mem_cons.mp hc with hc | hc
          · subst hc
            rw [r1 c hanotin, if_neg ka]
            exact hagree c (by simp)
          · exact r2 c hc
        · intro k
          rw [r3 k]
          constructor
          · rintro (hk | ⟨hk1, hk2⟩)
            · exact Or.inl hk
            · exact Or.inr ⟨by simp [hk1], hk2⟩
          · rintro (hk | ⟨hk1, hk2⟩)
            · exact Or.inl hk
            · rcases List.mem_cons.mp hk1 with hk1 | hk1
              · exact absurd (hk1 ▸ hk2) ka
              · exact Or.inr ⟨hk1, hk2⟩

/-- One dataset of the append-mode second loop preserves the merge
invariant. -/
theorem processDataset_INV (tz : ℚ) (hd : ℕ → Bool) (d : Dataset)
    (st : DMap × List String) (hwf : wfB d = true) (hinv : INVm st.1 st.2) :
    INVm (processDataset true tz hd st d).1 (processDataset true tz hd st d).2 := by
  unfold processDataset
  by_cases hh : hd (d.combining_number.getD 0) = true
  · rw [if_pos hh]
    obtain ⟨i1, i2, i3, i4⟩ := hinv
    obtain ⟨r1, r2, r3⟩ := processCols_fold (d.combining_number.getD 0)
      (d.tstamp - tz) d st.1 st.2 i4 d.data_cols (wfB_nodup hwf) st.1 st.2
      (fun c _ => rfl)
    show INVm
      (d.data_cols.foldl (processCol true (d.combining_number.getD 0)
        (d.tstamp - tz) d (oldLenFun st.1 st.2 d) (dLenFun d)) (st.1, st.2)).1
      (d.data_cols.foldl (processCol true (d.combining_number.getD 0)
        (d.tstamp - tz) d (oldLenFun st.1 st.2 d) (dLenFun d)) (st.1, st.2)).2
    have hlen_kept : ∀ x ∈ d.data_cols, timecolD x ∈ d.data_cols →
        (((d.data_cols.foldl (processCol true (d.combining_number.getD 0)
            (d.tstamp - tz) d (oldLenFun st.1 st.2 d) (dLenFun d))
            (st.1, st.2)).1 x).getD []).length =
          ((st.1 (timecolD x)).getD []).length +
          ((d.data (timecolD x)).getD []).length := by
      intro x hx hk
      rw [r2 x hx, if_pos hk]
      simp only [Option.getD_some]
      rw [newColData_length]
      have hoff : (if is_time x = true
          then ((d.data x).getD []).map (fun y => y + (d.tstamp - tz))
          else (d.data x).getD []).length = ((d.data x).getD []).length := by
        by_cases hit : is_time x = true <;> simp [hit]
      rw [hoff]
      have hdx : ((d.data x).getD []).length =
          ((d.data (timecolD x)).getD []).length := by
        have hTp := wfB_pres hwf (timecolD x) hk
        rcases hTs : d.data (timecolD x) with _ | tarr
        · simp [hTs] at hTp
        · have := wfB_len hwf x hx tarr hTs
          simpa using this
      have hsx : ((st.1 x).getD []).length ≤
          ((st.1 (timecolD x)).getD []).length := by
        by_cases hxc : x ∈ st.2
        · exact i3 x hxc
        · rw [i4 x hxc]
          simp
      rw [Nat.max_eq_left (by omega)]
    refine ⟨?_, ?_, ?_, ?_⟩
    · -- presence
      intro c hc
      by_cases hcd : c ∈ d.data_cols
      · by_cases hk : timecolD c ∈ d.data_cols
        · rw [r2 c hcd, if_pos hk]
          rfl
        · rw [r2 c hcd, if_neg hk]
          rcases (r3 c).mp hc with h | ⟨_, h⟩
          · exact i1 c h
          · exact absurd h hk
      · rw [r1 c hcd]
        rcases (r3 c).mp hc with h | ⟨h, _⟩
        · exact i1 c h
        · exact absurd h hcd
    · -- time-column closure
      intro c hc
      rcases (r3 c).mp hc with h | ⟨h1, h2⟩
      · exact (r3 (timecolD c)).mpr (Or.inl (i2 c h))
      · refine (r3 (timecolD c)).mpr (Or.inr ⟨h2, ?_⟩)
        rw [timecolD_idem]
        exact h2
    · -- length bound
      intro c hc
      by_cases hck : c ∈ d.data_cols ∧ timecolD c ∈ d.data_cols
      · have hkT : timecolD (timecolD c) ∈ d.data_cols := by
          rw [timecolD_idem]
          exact hck.2
        rw [hlen_kept c hck.1 hck.2, hlen_kept (timecolD c) hck.2 hkT,
           timecolD_idem c]
      · have hcs : c ∈ st.2 := by
          rcases (r3 c).mp hc with h | ⟨h1, h2⟩
          · exact h
          · exact absurd ⟨h1, h2⟩ hck
        have hRc : ((d.data_cols.foldl (processCol true (d.combining_number.getD 0)
            (d.tstamp - tz) d (oldLenFun st.1 st.2 d) (dLenFun d))
            (st.1, st.2)).1 c) = st.1 c := by
          by_cases hcd : c ∈ d.data_cols
          · have hk : timecolD c ∉ d.data_cols := fun h => hck ⟨hcd, h⟩
            rw [r2 c hcd, if_neg hk]
          · exact r1 c hcd
        rw [hRc]
        by_cases hTd : timecolD c ∈ d.data_cols
        · have hkT : timecolD (timecolD c) ∈ d.data_cols := by
            rw [timecolD_idem]
            exact hTd
          rw [hlen_kept (timecolD c) hTd hkT, timecolD_idem c]
          have := i3 c hcs
          omega
        · rw [r1 (timecolD c) hTd]
          exact i3 c hcs
    · -- unregistered keys absent
      intro k hk
      have hk2 : k ∉ st.2 ∧ ¬(k ∈ d.data_cols ∧ timecolD k ∈ d.data_cols) := by
        constructor
        · exact fun h => hk ((r3 k).mpr (Or.inl h))
        · exact fun h => hk ((r3 k).mpr (Or.inr h))
      by_cases hkd : k ∈ d.data_cols
      · have hkT : timecolD k ∉ d.data_cols := fun h => hk2.2 ⟨hkd, h⟩
        rw [r2 k hkd, if_neg hkT]
        exact i4 k hk2.1
      · rw [r1 k hkd]
        exact i4 k hk2.1
  · rw [if_neg hh]
    exact hinv

theorem padIf_self (m : DMap) (c : String) (l0 l1 : ℕ) :
    padIf m c l0 l1 c =
      if l1 < l0 then some ((m c).getD [] ++ List.replicate (l0 - l1) 0)
      else m c := by
  unfold padIf
  split_ifs with h
  · show (if c = c then _ else m c) = _
    rw [if_pos rfl]
  · rfl

theorem padIf_other (m : DMap) (c : String) (l0 l1 : ℕ) (k : String)
    (hk : k ≠ c) : padIf m c l0 l1 k = m k := by
  unfold padIf
  split_ifs with h
  · show (if k = c then _ else m k) = _
    rw [if_neg hk]
  · rfl

/-- The final padding pass (lines 422-432), under the merge invariant: it
returns normally (every registered column's time column is a present key, so
neither the stale-`l0` reuse nor the unbound-`l0` crash of the missing
`continue` can fire), never changes a time column (its own pad is a no-op),
and brings every processed column to exactly its time column's length. -/
theorem postStep_fold (m : DMap) (L : List String) :
    ∀ (mi : DMap) (l0prev : Option ℕ),
    (∀ T, timecolD T = T → mi T = m T) →
    (∀ c, (∃ arr, mi c = some arr ∧
        arr.length = ((m (timecolD c)).getD []).length) ∨ mi c = m c) →
    (∀ c ∈ L, (m (timecolD c)).isSome) →
    (∀ c ∈ L, (m c).isSome) →
    (∀ c ∈ L, ((m c).getD []).length ≤ ((m (timecolD c)).getD []).length) →
    ∃ res : DMap × Option ℕ,
      L.foldlM postStep (mi, l0prev) = some res ∧
      (∀ T, timecolD T = T → res.1 T = m T) ∧
      (∀ c', (∃ arr, mi c' = some arr ∧
          arr.length = ((m (timecolD c')).getD []).length) →
        ∃ arr, res.1 c' = some arr ∧
          arr.length = ((m (timecolD c')).getD []).length) ∧
      (∀ c ∈ L, ∃ arr, res.1 c = some arr ∧
          arr.length = ((m (timecolD c)).getD []).length) := by
  induction L with
  | nil =>
      intro mi l0prev p1 p2 _ _ _
      exact ⟨(mi, l0prev), rfl, p1, fun c' h => h, by simp⟩
  | cons c cs ih =>
      intro mi l0prev p1 p2 p3 p4 p5
      have hfixT : timecolD (timecolD c) = timecolD c := timecolD_idem c
      have hmiT : mi (timecolD c) = m (timecolD c) := p1 _ hfixT
      have hTp : (m (timecolD c)).isSome := p3 c (by simp)
      rcases hTs : m (timecolD c) with _ | tarr
      · simp [hTs] at hTp
      · have hstep : postStep (mi, l0prev) c =
            some (padIf mi c tarr.length ((mi c).getD []).length,
                  some tarr.length) := by
          unfold postStep
          simp only [hmiT, hTs]
        have hl1 : ((mi c).getD []).length ≤ tarr.length := by
          rcases p2 c with ⟨arr, harr, hlen⟩ | hsame
          · rw [harr]
            simp only [Option.getD_some]
            rw [hlen, hTs]
            rfl
          · rw [hsame]
            have := p5 c (by simp)
            rw [hTs] at this
            simpa using this
        have hfin : ∃ arr, padIf mi c tarr.length ((mi c).getD []).length c
            = some arr ∧ arr.length = ((m (timecolD c)).getD []).length := by
          rw [padIf_self]
          by_cases hlt : ((mi c).getD []).length < tarr.length
          · rw [if_pos hlt]
            refine ⟨_, rfl, ?_⟩
            rw [hTs]
            simp only [List.length_append, List.length_replicate,
              Option.getD_some]
            omega
          · rw [if_neg hlt]
            have hl1e : ((mi c).getD []).length = tarr.length := by omega
            rcases p2 c with ⟨arr, harr, hlen⟩ | hsame
            · exact ⟨arr, harr, hlen⟩
            · have : (m c).isSome := p4 c (by simp)
              rcases hmc : m c with _ | arr
              · simp [hmc] at this
              · refine ⟨arr, by rw [hsame, hmc], ?_⟩
                rw [hTs]
                rw [hsame, hmc] at hl1e
                simpa using hl1e
        have p1' : ∀ T, timecolD T = T →
            padIf mi c tarr.length ((mi c).getD []).length T = m T := by
          intro T hT
          by_cases hTc : T = c
          · -- then c is its own time column and its pad is a no-op
            have hceq : mi c = m c := by
              rw [← hTc] at hTs hmiT ⊢
              rw [hT] at hmiT
              exact hmiT
            have hfc : timecolD c = c := by
              rw [← hTc]
              exact hT
            have : ((mi c).getD []).length = tarr.length := by
              rw [hceq]
              have hmm : m (timecolD c) = m c := by rw [hfc]
              rw [hTs] at hmm
              rw [← hmm]
              rfl
            rw [hTc, padIf_self, if_neg (by omega)]
            exact hceq
          · rw [padIf_other _ _ _ _ _ hTc]
            exact p1 T hT
        have p2' : ∀ c', (∃ arr,
            padIf mi c tarr.length ((mi c).getD []).length c' = some arr ∧
            arr.length = ((m (timecolD c')).getD []).length) ∨
            padIf mi c tarr.length ((mi c).getD []).length c' = m c' := by
          intro c'
          by_cases hc' : c' = c
          · subst hc'
            exact Or.inl hfin
          · rw [padIf_other _ _ _ _ _ hc']
            exact p2 c'
        obtain ⟨res, hres, q1, q2, q3⟩ := ih
          (padIf mi c tarr.length ((mi c).getD []).length) (some tarr.length)
          p1' p2'
          (fun x hx => p3 x (by simp [hx]))
          (fun x hx => p4 x (by simp [hx]))
          (fun x hx => p5 x (by simp [hx]))
        refine ⟨res, ?_, q1, ?_, ?_⟩
        · rw [List.foldlM_cons, hstep]
          exact hres
        · intro c' hc'
          apply q2
          rcases p2' c' with h | h
          · exact h
          · by_cases hcc : c' = c
            · subst hcc
              exact hfin
            · rw [padIf_other _ _ _ _ _ hcc]
              rcases hc' with ⟨arr, harr, hlen⟩
              exact ⟨arr, harr, hlen⟩
        · intro x hx
          rcases List.mem_cons.mp hx with hx | hx
          · apply q2
            rw [hx]
            exact hfin
          · exact q3 x hx

/-- The second loop preserves the merge invariant across the whole sorted
dataset list. -/
theorem processFold_INV (tz : ℚ) (hd : ℕ → Bool) :
    ∀ (L : List Dataset), (∀ d ∈ L, wfB d = true) →
    ∀ st : DMap × List String, INVm st.1 st.2 →
      INVm (L.foldl (processDataset true tz hd) st).1
           (L.foldl (processDataset true tz hd) st).2 := by
  intro L
  induction L with
  | nil =>
      intro _ st h
      exact h
  | cons d ds ih =>
      intro hwf st h
      rw [List.foldl_cons]
      exact ih (fun x hx => hwf x (List.mem_cons_of_mem _ hx)) _
        (processDataset_INV tz hd d st (hwf d (List.mem_cons_self _ _)) h)

/-- The empty merge state satisfies the invariant. -/
theorem INVm_init : INVm (fun _ => none) [] :=
  ⟨fun c hc => absurd hc (List.not_mem_nil c),
   fun c hc => absurd hc (List.not_mem_nil c),
   fun c hc => absurd hc (List.not_mem_nil c),
   fun _ _ => rfl⟩

/-- Whatever else the first loop does, it appends exactly the tagged copy of
the dataset to `tagged` (all three branches agree on this field). -/
theorem pass1Step_tagged (now : ℚ) (n : ℕ) (acc : Pass1) (pr : ℕ × Dataset) :
    (pass1Step now n acc pr).tagged =
      acc.tagged ++ [{ pr.2 with combining_number := some pr.1 }] := by
  simp only [pass1Step]
  split_ifs <;> rfl

theorem pass1Fold_tagged_wf (now : ℚ) (n : ℕ) :
    ∀ (L : List (ℕ × Dataset)) (acc : Pass1),
      (∀ p ∈ L, wfB p.2 = true) → (∀ d ∈ acc.tagged, wfB d = true) →
      ∀ d ∈ (L.foldl (pass1Step now n) acc).tagged, wfB d = true := by
  intro L
  induction L with
  | nil =>
      intro acc _ hacc
      exact hacc
  | cons p ps ih =>
      intro acc hL hacc
      rw [List.foldl_cons]
      refine ih _ (fun q hq => hL q (List.mem_cons_of_mem _ hq)) ?_
      intro d hd
      rw [pass1Step_tagged] at hd
      rcases List.mem_append.mp hd with h | h
      · exact hacc d h
      · rw [List.mem_singleton] at h
        rw [h, wfB_tag]
        exact hL p (List.mem_cons_self _ _)

theorem snd_mem_of_mem_enumFrom :
    ∀ (L : List Dataset) (k : ℕ) (p : ℕ × Dataset), p ∈ L.enumFrom k → p.2 ∈ L := by
  intro L
  induction L with
  | nil =>
      intro k p h
      exact absurd h (List.not_mem_nil p)
  | cons x xs ih =>
      intro k p h
      rcases List.mem_cons.mp h with h | h
      · rw [h]
        exact List.mem_cons_self _ _
      · exact List.mem_cons_of_mem _ (ih (k + 1) p h)

/-- Dataset tagging is the only change the first loop makes to the datasets
it stores, so sanity survives it. -/
theorem pass1_tagged_wf (now : ℚ) (datasets : List Dataset)
    (hwf : ∀ d ∈ datasets, wfB d = true) :
    ∀ d ∈ (pass1 now datasets).tagged, wfB d = true := by
  unfold pass1
  refine pass1Fold_tagged_wf now datasets.length datasets.enum _ ?_ ?_
  · intro p hp
    exact hwf p.2 (snd_mem_of_mem_enumFrom datasets 0 p hp)
  · intro d hd
    exact absurd hd (List.not_mem_nil d)

/-- `getD` with the empty-dataset default keeps sanity (the out-of-range
indices `np.argsort` can produce when `recstarts` is shorter than `tagged`
yield the default, which is sane). -/
theorem tagged_getD_wf (L : List Dataset) (hwf : ∀ d ∈ L, wfB d = true)
    (i : ℕ) : wfB (L.getD i {}) = true := by
  rcases h : L[i]? with _ | x
  · have he : L.getD i ({} : Dataset) = {} := by
      simp [List.getD, h]
    rw [he]
    exact wfB_default
  · have he : L.getD i ({} : Dataset) = x := by
      simp [List.getD, h]
    rw [he]
    exact hwf x (List.get?_mem (by rw [List.get?_eq_getElem?, h]))

/-- The post-pass succeeds on an invariant-satisfying merge state, fixes the
time columns, and pads every registered column to its time column's stored
length. -/
theorem postpass_spec (m : DMap) (cols : List String) (hinv : INVm m cols) :
    ∃ m', postpass cols m = some m' ∧
      (∀ T, timecolD T = T → m' T = m T) ∧
      (∀ c ∈ cols, ∃ arr, m' c = some arr ∧
        arr.length = ((m (timecolD c)).getD []).length) := by
  obtain ⟨i1, i2, i3, i4⟩ := hinv
  obtain ⟨res, hres, q1, _, q3⟩ :=
    postStep_fold m cols m none (fun _ _ => rfl) (fun c => Or.inr rfl)
      (fun c hc => i1 _ (i2 c hc)) i1 i3
  refine ⟨res.1, ?_, q1, q3⟩
  unfold postpass
  rw [hres]
  rfl

/-- The whole merge branch of `synchronize`: from an invariant-satisfying
merge state, the returned combined dataset registers columns of exactly their
time columns' lengths. -/
theorem mergeBranch_spec (m : DMap) (cols : List String)
    (hinv : INVm m cols) (mk : DMap → Dataset)
    (hmk_cols : ∀ md, (mk md).data_cols = cols)
    (hmk_data : ∀ md, (mk md).data = md)
    (out : Dataset)
    (hout : (postpass cols m).map mk = some out) :
    ∀ c ∈ out.data_cols, ∀ tarr, out.data (timecolD c) = some tarr →
      ∃ arr, out.data c = some arr ∧ arr.length = tarr.length := by
  obtain ⟨m', hm', q1, q3⟩ := postpass_spec m cols hinv
  rw [hm'] at hout
  have hout2 : mk m' = out := Option.some.inj hout
  intro c hc tarr htarr
  rw [← hout2, hmk_cols] at hc
  rw [← hout2, hmk_data] at htarr
  obtain ⟨arr, harr, hlen⟩ := q3 c hc
  rw [← hout2, hmk_data]
  refine ⟨arr, harr, ?_⟩
  have hfix : m' (timecolD c) = m (timecolD c) := q1 (timecolD c) (timecolD_idem c)
  have hmt : m (timecolD c) = some tarr := hfix.symm.trans htarr
  rw [hlen, hmt]
  rfl

/-- **C2.** In append mode, every column of the combined dataset `synchronize`
returns has exactly the length of its (combined) time column: columns missing
from a constituent dataset are zero-padded by the merge (lines 353-362) and
the final pass (lines 422-432), never left ragged.  The inputs are assumed
sane in the spec's §3 sense (`wfB`); the conclusion covers every path that
returns a dataset (the single-dataset shortcut included, where it follows
from the input's own sanity). -/
theorem c2_append_length_invariant (datasets : List Dataset) (now : ℚ)
    (tzp : TZeroPolicy) (override userContinues : Bool)
    (hwf : ∀ d ∈ datasets, wfB d = true) (out : Dataset)
    (hout : synchronize datasets now tzp true override userContinues = some out) :
    ∀ c ∈ out.data_cols, ∀ tarr, out.data (timecolD c) = some tarr →
      ∃ arr, out.data c = some arr ∧ arr.length = tarr.length := by
  simp only [synchronize] at hout
  set P := pass1 now datasets with hP
  by_cases hab : P.t_finish < P.t_start ∧ override = false ∧ userContinues = false
  · rw [if_pos hab] at hout
    exact absurd hout (by simp)
  · rw [if_neg hab] at hout
    by_cases hone : (P.hasdata.filter (·.2)).length = 1
    · rw [if_pos hone] at hout
      rcases hf : P.hasdata.find? (·.2) with _ | pr
      · rw [hf] at hout
        exact absurd hout (by simp)
      · rw [hf] at hout
        have hget : P.tagged.get? pr.1 = some out := hout
        have hmem : out ∈ P.tagged := List.get?_mem hget
        rw [hP] at hmem
        have hwfo : wfB out = true := pass1_tagged_wf now datasets hwf out hmem
        intro c hc tarr htarr
        have h1 := wfB_pres hwfo c hc
        rcases hoc : out.data c with _ | arr
        · rw [hoc] at h1
          exact absurd h1 (by simp)
        · refine ⟨arr, rfl, ?_⟩
          have h2 := wfB_len hwfo c hc tarr htarr
          rw [hoc] at h2
          simpa using h2
    · rw [if_neg hone] at hout
      have hsw : ∀ d ∈ (argsortQ P.recstarts).map (fun i => P.tagged.getD i {}),
          wfB d = true := by
        intro d hd
        rcases List.mem_map.mp hd with ⟨i, _, hdi⟩
        rw [← hdi]
        refine tagged_getD_wf P.tagged ?_ i
        rw [hP]
        exact pass1_tagged_wf now datasets hwf
      exact mergeBranch_spec _ _
        (processFold_INV (resolveTZero tzp P) (lookupB P.hasdata)
          ((argsortQ P.recstarts).map (fun i => P.tagged.getD i {})) hsw
          ((fun _ => none : DMap), ([] : List String)) INVm_init)
        _ (fun _ => rfl) (fun _ => rfl) out hout

theorem c2_append_length_invariant_witness :
    (∀ d ∈ [dsA], wfB d = true) ∧
    synchronize [dsA] 200 TZeroPolicy.start true true false =
      some { dsA with combining_number := some 0 } ∧
    (∀ c ∈ ({ dsA with combining_number := some 0 } : Dataset).data_cols,
      ∀ tarr,
        ({ dsA with combining_number := some 0 } : Dataset).data (timecolD c) =
          some tarr →
        ∃ arr, ({ dsA with combining_number := some 0 } : Dataset).data c =
          some arr ∧ arr.length = tarr.length) := by
  have hwf : ∀ d ∈ [dsA], wfB d = true := by
    intro d hd
    rw [List.mem_singleton] at hd
    rw [hd]
    decide
  have hsync : synchronize [dsA] 200 TZeroPolicy.start true true false =
      some { dsA with combining_number := some 0 } := by
    simp only [synchronize]
    rw [if_neg (by simp)]
    have hhd : (pass1 200 [dsA]).hasdata = [(0, true)] := rfl
    rw [if_pos (by rw [hhd]; rfl)]
    rw [hhd]
    rfl
  exact ⟨hwf, hsync,
    c2_append_length_invariant [dsA] 200 TZeroPolicy.start true false hwf _ hsync⟩
